import Mathlib

/-!
Verification of the cron webhook scheduler: a shallow embedding of the
scheduling, webhook-chaining, variable-extraction and templating logic of
`internal/scheduler/scheduler.go` and `internal/config/config.go`, with
theorems settling the specification claims.

Go strings are modelled as lists of characters (`Str`); Go maps as
association lists where insertion replaces the previous binding for the
key, mirroring Go map assignment.  Go map iteration order is unspecified;
the model fixes the list order, and theorems quantify over the list.
-/

namespace CronSpec

/-- Go strings, modelled as lists of characters. -/
abbrev Str := List Char

/-- Left curly brace character (written via its code point, as it only
appears in data strings of the modelled program). -/
def lb : Char := Char.ofNat 123

/-- Right curly brace character. -/
def rb : Char := Char.ofNat 125

/-- `startsWithB pat s` is true when `pat` is a prefix of `s`;
models Go `strings.HasPrefix(s, pat)`. -/
def startsWithB : Str → Str → Bool
  | [], _ => true
  | _ :: _, [] => false
  | p :: ps, c :: cs => p = c && startsWithB ps cs

/-- `containsSub s pat` is true when `pat` occurs as a contiguous substring
of `s`; models Go `strings.Contains(s, pat)`. -/
def containsSub : Str → Str → Bool
  | [], pat => pat.isEmpty
  | c :: t, pat => startsWithB pat (c :: t) || containsSub t pat

/-- Fuel-indexed worker for `replaceAll`; each step consumes at least one
character of `s`, so fuel `s.length` suffices. -/
def replaceAllF : Nat → Str → Str → Str → Str
  | _, s, [], _ => s
  | _, [], _ :: _, _ => []
  | 0, s, _ :: _, _ => s
  | n + 1, c :: t, p :: ps, rep =>
    if startsWithB (p :: ps) (c :: t)
    then rep ++ replaceAllF n ((c :: t).drop (p :: ps).length) (p :: ps) rep
    else c :: replaceAllF n t (p :: ps) rep

/-- `replaceAll s pat rep` replaces every non-overlapping occurrence of
`pat` in `s` with `rep`, scanning left to right; models Go
`strings.ReplaceAll(s, pat, rep)` for non-empty `pat` (the program never
uses an empty pattern). -/
def replaceAll (s pat rep : Str) : Str :=
  replaceAllF s.length s pat rep

example : replaceAll "hello".toList "l".toList "L".toList = "heLLo".toList := by decide
example : containsSub "abc".toList "bc".toList = true := by decide
example : startsWithB "a_".toList "a_b_r".toList = true := by decide

/-! ### Association-list maps, modelling Go maps -/

/-- Lookup in an association list; models Go map indexing `m[k]`. -/
def mlookup {α : Type} (k : Str) : List (Str × α) → Option α
  | [] => none
  | (k', v) :: rest => if k' = k then some v else mlookup k rest

/-- Remove every binding for `k`; models Go `delete(m, k)`. -/
def merase {α : Type} (k : Str) : List (Str × α) → List (Str × α)
  | [] => []
  | (k', v) :: rest => if k' = k then merase k rest else (k', v) :: merase k rest

/-- Set the binding for `k` to `v`, replacing any previous one; models Go
map assignment `m[k] = v`. -/
def minsert {α : Type} (k : Str) (v : α) (m : List (Str × α)) : List (Str × α) :=
  (k, v) :: merase k m

/-! ### JSON values

`encoding/json` decodes into `interface{}`; the decoded shapes used by this
program are modelled by `Json`.  Numbers are modelled as integers (the
modelled data contains no fractional numbers). -/

mutual

/-- A decoded JSON document. -/
inductive Json where
  | null
  | bool (b : Bool)
  | num (n : Int)
  | str (s : Str)
  | arr (elems : JsonArr)
  | obj (fields : JsonObj)
deriving DecidableEq

/-- A list of JSON array elements (a separate inductive so that decidable
equality and structural recursion are available). -/
inductive JsonArr where
  | nil
  | cons (hd : Json) (tl : JsonArr)
deriving DecidableEq

/-- A list of JSON object fields. -/
inductive JsonObj where
  | nil
  | cons (key : Str) (val : Json) (tl : JsonObj)
deriving DecidableEq

end

/-- The elements of a JSON array as a list. -/
def JsonArr.toList : JsonArr → List Json
  | .nil => []
  | .cons h t => h :: t.toList

/-- Build a JSON array from a list of elements. -/
def JsonArr.ofList : List Json → JsonArr
  | [] => .nil
  | h :: t => .cons h (JsonArr.ofList t)

/-- The field values of a JSON object, in order. -/
def JsonObj.vals : JsonObj → List Json
  | .nil => []
  | .cons _ v t => v :: t.vals

/-- Build a JSON object from a list of fields. -/
def JsonObj.ofList : List (Str × Json) → JsonObj
  | [] => .nil
  | (k, v) :: t => .cons k v (JsonObj.ofList t)

/-- First binding of `k` in a JSON object; models Go map indexing of a
decoded object. -/
def JsonObj.lookupKey (k : Str) : JsonObj → Option Json
  | .nil => none
  | .cons k' v t => if k' = k then some v else t.lookupKey k

/-- Skip JSON whitespace. -/
def skipWs : Str → Str
  | [] => []
  | c :: t => if c = ' ' ∨ c = '\n' ∨ c = '\t' ∨ c = '\r' then skipWs t else c :: t

/-- Parse the body of a JSON string literal after the opening quote,
returning the decoded characters and the remainder after the closing
quote. -/
def parseStrBody : Str → Option (Str × Str)
  | [] => none
  | '"' :: r => some ([], r)
  | '\\' :: e :: r =>
    let esc : Option Char :=
      match e with
      | '"' => some '"'
      | '\\' => some '\\'
      | '/' => some '/'
      | 'n' => some '\n'
      | 't' => some '\t'
      | 'r' => some '\r'
      | _ => none
    esc.bind fun c => (parseStrBody r).map fun p => (c :: p.1, p.2)
  | c :: r => (parseStrBody r).map fun p => (c :: p.1, p.2)

/-- Numeric value of a decimal digit character. -/
def digitVal (c : Char) : Option Nat :=
  if '0' ≤ c ∧ c ≤ '9' then some (c.toNat - '0'.toNat) else none

/-- Split a leading run of decimal digits off a string. -/
def takeDigits : Str → (List Nat × Str)
  | [] => ([], [])
  | c :: t =>
    match digitVal c with
    | some d => ((d :: (takeDigits t).1), (takeDigits t).2)
    | none => ([], c :: t)

/-- Decimal digits to a natural number. -/
def digitsToNat (ds : List Nat) : Nat := ds.foldl (fun a d => a * 10 + d) 0

/-- Parse a leading unsigned integer. -/
def parsePosNum (s : Str) : Option (Nat × Str) :=
  if (takeDigits s).1 = [] then none else some (digitsToNat (takeDigits s).1, (takeDigits s).2)

/-- Parse a leading (possibly negative) integer. -/
def parseNumber : Str → Option (Int × Str)
  | '-' :: r => (parsePosNum r).map fun p => (-(p.1 : Int), p.2)
  | s => (parsePosNum s).map fun p => ((p.1 : Int), p.2)

mutual

/-- Fuel-indexed JSON value parse; part of the model of `json.Unmarshal`. -/
def parseJsonVal : Nat → Str → Option (Json × Str)
  | 0, _ => none
  | n + 1, s =>
    match skipWs s with
    | [] => none
    | 'n' :: 'u' :: 'l' :: 'l' :: r => some (.null, r)
    | 't' :: 'r' :: 'u' :: 'e' :: r => some (.bool true, r)
    | 'f' :: 'a' :: 'l' :: 's' :: 'e' :: r => some (.bool false, r)
    | '"' :: r => (parseStrBody r).map fun p => (.str p.1, p.2)
    | '[' :: r =>
      (match skipWs r with
        | ']' :: r' => some (.arr .nil, r')
        | _ => (parseElems n (skipWs r)).map fun p => (.arr (JsonArr.ofList p.1), p.2))
    | c :: r =>
      if c = lb then
        match skipWs r with
        | [] => none
        | d :: r' =>
          if d = rb then some (.obj .nil, r')
          else (parseFields n (skipWs r)).map fun p => (.obj (JsonObj.ofList p.1), p.2)
      else (parseNumber (c :: r)).map fun p => (.num p.1, p.2)

/-- Fuel-indexed parse of comma-separated array elements up to `]`. -/
def parseElems : Nat → Str → Option (List Json × Str)
  | 0, _ => none
  | n + 1, s =>
    (parseJsonVal n s).bind fun p =>
      match skipWs p.2 with
      | ',' :: r => (parseElems n r).map fun q => (p.1 :: q.1, q.2)
      | ']' :: r => some ([p.1], r)
      | _ => none

/-- Fuel-indexed parse of comma-separated object fields up to the closing
brace. -/
def parseFields : Nat → Str → Option (List (Str × Json) × Str)
  | 0, _ => none
  | n + 1, s =>
    match skipWs s with
    | '"' :: r =>
      (parseStrBody r).bind fun pk =>
        match skipWs pk.2 with
        | ':' :: r2 =>
          (parseJsonVal n r2).bind fun pv =>
            (match skipWs pv.2 with
              | ',' :: r4 => (parseFields n r4).map fun q => ((pk.1, pv.1) :: q.1, q.2)
              | d :: r4 => if d = rb then some ([(pk.1, pv.1)], r4) else none
              | [] => none)
        | _ => none
    | _ => none

end

/-- Modelled from the spec: `json.Unmarshal` ("Parses jsonText as JSON
once"), the standard-library JSON decoder used by `extractVariables`;
restricted to the JSON subset handled by the parser above. -/
def unmarshal (s : Str) : Option Json :=
  match parseJsonVal (s.length + 1) s with
  | some (j, r) => if skipWs r = [] then some j else none
  | none => none

example :
    unmarshal "\x7b\"status\":\"ok\"\x7d".toList
      = some (.obj (.cons "status".toList (.str "ok".toList) .nil)) := by decide
example :
    unmarshal "[1,\x7b\"s\":\"ok\"\x7d]".toList
      = some (.arr (.cons (.num 1)
          (.cons (.obj (.cons "s".toList (.str "ok".toList) .nil)) .nil))) := by decide
example : unmarshal "not json".toList = none := by decide

/-! ### jq queries

Modelled from the spec: the `gojq` library used by `extractVariables`
supplies "jq-like query semantics (field access, indexing, pipes)"; the
model covers the subset exercised here: identity, field access, array
iteration and pipes.  Evaluation yields a stream of results in which
errors appear inline, as in `gojq`'s iterator API. -/

deriving instance DecidableEq for Except

/-- A parsed jq query (subset). -/
inductive JqQuery where
  | identity
  | field (name : Str)
  | iter
  | pipe (l r : JqQuery)
deriving DecidableEq

/-- Modelled from the spec: evaluation of a jq query against a JSON value,
yielding a stream of results; errors are yielded inline, matching
`gojq`'s `Iter.Next` returning error values. -/
def jqRun : JqQuery → Json → List (Except Str Json)
  | .identity, j => [.ok j]
  | .field n, j =>
    match j with
    | .obj fs => [.ok ((fs.lookupKey n).getD .null)]
    | .null => [.ok .null]
    | _ => [.error ("cannot index with ".toList ++ n)]
  | .iter, j =>
    match j with
    | .arr xs => xs.toList.map Except.ok
    | .obj fs => fs.vals.map Except.ok
    | _ => [.error "cannot iterate".toList]
  | .pipe l r, j =>
    (jqRun l j).flatMap fun x =>
      match x with
      | .error e => [.error e]
      | .ok v => jqRun r v

/-- Is `c` a jq identifier character? -/
def isIdentChar (c : Char) : Bool := c.isAlpha || c.isDigit || c = '_'

/-- Split a leading identifier off a string. -/
def takeIdent : Str → (Str × Str)
  | [] => ([], [])
  | c :: t =>
    if isIdentChar c then ((c :: (takeIdent t).1), (takeIdent t).2)
    else ([], c :: t)

/-- Fuel-indexed parse of a dotted jq path (`.a`, `.[]`, `.a.b`, `.[].a`). -/
def parseSegs : Nat → Str → Option JqQuery
  | 0, _ => none
  | n + 1, s =>
    match s with
    | '.' :: '[' :: ']' :: rest =>
      if rest = [] then some .iter
      else (parseSegs n rest).map (JqQuery.pipe .iter ·)
    | '.' :: rest =>
      if (takeIdent rest).1 = [] then none
      else if (takeIdent rest).2 = [] then some (.field (takeIdent rest).1)
      else (parseSegs n (takeIdent rest).2).map (JqQuery.pipe (.field (takeIdent rest).1) ·)
    | _ => none

/-- Modelled from the spec: `gojq.Parse` on the selector subset used by the
claims; any string outside the subset fails to parse. -/
def parseSelector (s : Str) : Option JqQuery :=
  if s = ['.'] then some .identity else parseSegs s.length s

example : parseSelector ".status".toList = some (.field "status".toList) := by decide
example : parseSelector ".[].s".toList
    = some (.pipe .iter (.field "s".toList)) := by decide
example : parseSelector "(((".toList = none := by decide
example :
    jqRun (.pipe .iter (.field "s".toList))
      (.arr (.cons (.num 1)
        (.cons (.obj (.cons "s".toList (.str "ok".toList) .nil)) .nil)))
    = [.error ("cannot index with s".toList), .ok (.str "ok".toList)] := by decide

/-! ### Serialization and variable values -/

/-- Decimal rendering of an integer. -/
def intToStr (n : Int) : Str :=
  if n < 0 then '-' :: Nat.toDigits 10 n.natAbs else Nat.toDigits 10 n.natAbs

/-- Modelled from the spec: `json.Marshal` string escaping, restricted to
the escapes relevant to the modelled data (quote, backslash, newline, tab,
carriage return; Go additionally escapes HTML-significant and control
characters, none of which occur here). -/
def escapeJsonStr (s : Str) : Str :=
  s.flatMap fun c =>
    if c = '"' then ['\\', '"']
    else if c = '\\' then ['\\', '\\']
    else if c = '\n' then ['\\', 'n']
    else if c = '\t' then ['\\', 't']
    else if c = '\r' then ['\\', 'r']
    else [c]

mutual

/-- Modelled from the spec: `json.Marshal` of a decoded JSON value (used
for non-string values substituted into templates).  Field order of decoded
objects is kept as decoded. -/
def jsonSerialize : Json → Str
  | .null => "null".toList
  | .bool true => "true".toList
  | .bool false => "false".toList
  | .num n => intToStr n
  | .str s => '"' :: escapeJsonStr s ++ ['"']
  | .arr xs => '[' :: serializeArr xs ++ [']']
  | .obj fs => lb :: serializeObj fs ++ [rb]

/-- Comma-separated serialization of array elements. -/
def serializeArr : JsonArr → Str
  | .nil => []
  | .cons h .nil => jsonSerialize h
  | .cons h (.cons h2 t) => jsonSerialize h ++ ',' :: serializeArr (.cons h2 t)

/-- Comma-separated serialization of object fields. -/
def serializeObj : JsonObj → Str
  | .nil => []
  | .cons k v .nil => '"' :: escapeJsonStr k ++ '"' :: ':' :: jsonSerialize v
  | .cons k v (.cons k2 v2 t) =>
    '"' :: escapeJsonStr k ++ '"' :: ':' :: jsonSerialize v ++ ',' :: serializeObj (.cons k2 v2 t)

end

/-- A Go `interface` value held in a variable mapping: a Go string, a
non-string JSON-decoded value, or any other runtime value carried with its
`json.Marshal` outcome (`none` when marshaling fails) and its
`fmt.Sprintf` percent-v rendering. -/
inductive GoVal where
  | str (s : Str)
  | json (j : Json)
  | dyn (marshalRes : Option Str) (goRepr : Str)
deriving DecidableEq

/-- A `gojq` result as a Go `interface` value: JSON strings become Go
strings, everything else stays a decoded JSON value. -/
def toGoVal : Json → GoVal
  | .str s => .str s
  | j => .json j

/-- A variable mapping, modelling Go `map[string]interface` with the
iteration order fixed by the list. -/
abbrev VarMap := List (Str × GoVal)

/-! ### The template engine (`processTemplate`, scheduler.go lines 505-580) -/

/-- The literal variable name `REMINDER`. -/
def remKey : Str := "REMINDER".toList

/-- The placeholder text for a variable name: two opening braces, the
name, two closing braces. -/
def placeholderOf (name : Str) : Str := lb :: lb :: (name ++ [rb, rb])

/-- The escaping the source applies to string values before substitution:
four sequential `strings.ReplaceAll` passes over newline, carriage return,
tab and double quote (scheduler.go lines 519-522 and 559-562). -/
def escapeStr (s : Str) : Str :=
  replaceAll
    (replaceAll
      (replaceAll
        (replaceAll s ['\n'] ['\\', 'n'])
        ['\r'] ['\\', 'r'])
      ['\t'] ['\\', 't'])
    ['"'] ['\\', '"']

/-- The text substituted for a placeholder, from the source's inline logic
(scheduler.go lines 517-542 and 556-576): string values get `escapeStr`;
other values are `json.Marshal`ed, falling back to the percent-v rendering
when marshaling fails. -/
def substValue : GoVal → Str
  | .str s => escapeStr s
  | .json j => jsonSerialize j
  | .dyn (some m) _ => m
  | .dyn none g => g

/-- The loop body of `processTemplate` for one variable (scheduler.go
lines 545-577): `REMINDER` is skipped (already handled), a placeholder
not contained in the current text is skipped, and otherwise every
occurrence is replaced by the value's substitution text. -/
def tmplStep (res : Str) (p : Str × GoVal) : Str :=
  if p.1 = remKey then res
  else if containsSub res (placeholderOf p.1) then
    replaceAll res (placeholderOf p.1) (substValue p.2)
  else res

/-- `processTemplate` (scheduler.go lines 505-580): replaces the reserved
`REMINDER` placeholder (empty replacement when the variable is absent),
then scans the variable mapping, replacing each present placeholder.
Every return site of the source returns a nil error. -/
def processTemplate (templateStr : Str) (vars : VarMap) : Except Str Str :=
  if templateStr = [] then .ok templateStr
  else
    let afterReminder :=
      if containsSub templateStr (placeholderOf remKey) then
        match mlookup remKey vars with
        | some v => replaceAll templateStr (placeholderOf remKey) (substValue v)
        | none => replaceAll templateStr (placeholderOf remKey) []
      else templateStr
    .ok (vars.foldl tmplStep afterReminder)

example :
    processTemplate "\x7b\x7bREMINDER\x7d\x7d".toList [] = .ok [] := by decide
example :
    processTemplate "\x7b\"result\":\"\x7b\x7bs\x7d\x7d\"\x7d".toList
      [("s".toList, .str "ok".toList)]
    = .ok "\x7b\"result\":\"ok\"\x7d".toList := by decide

/-! ### The variable extractor (`extractVariables`, scheduler.go lines 454-502) -/

/-- The first non-error result of a `gojq` iterator, as taken by the
source's inner loop: error results are passed over with `continue`, the
first value is kept and the loop breaks; an exhausted iterator yields
nothing. -/
def firstOk : List (Except Str Json) → Option Json
  | [] => none
  | .ok v :: _ => some v
  | .error _ :: t => firstOk t

/-- The loop body of `extractVariables` for one selector (scheduler.go
lines 474-498): parse the selector (skipping the name on failure), run it,
and keep the first non-error result, if any. -/
def extractStep (data : Json) (vars : VarMap) (p : Str × Str) : VarMap :=
  match parseSelector p.2 with
  | none => vars
  | some q =>
    match firstOk (jqRun q data) with
    | some v => minsert p.1 (toGoVal v) vars
    | none => vars

/-- `extractVariables` (scheduler.go lines 454-502): an empty selector set
returns the nil mapping without parsing; otherwise the JSON is parsed once
(an unparsable document is an error), and each selector in turn is
processed by `extractStep`. -/
def extractVariables (jsonData : Str) (selectors : List (Str × Str)) :
    Except Str VarMap :=
  if selectors = [] then .ok []
  else
    match unmarshal jsonData with
    | none => .error "failed to parse JSON response".toList
    | some data => .ok (selectors.foldl (extractStep data) [])

example :
    extractVariables "\x7b\"status\":\"ok\"\x7d".toList
      [("s".toList, ".status".toList)]
    = .ok [("s".toList, .str "ok".toList)] := by decide
example :
    extractVariables "[1,\x7b\"s\":\"ok\"\x7d]".toList
      [("s".toList, ".[].s".toList)]
    = .ok [("s".toList, .str "ok".toList)] := by decide

/-! ### Configuration data model (`internal/config/config.go`) -/

/-- `config.WebhookConfig`.  `timeout` is in seconds, 0 meaning the default. -/
structure WebhookConfig where
  url : Str
  method : Str
  headers : List (Str × Str)
  body : Str
  jqSelectors : List (Str × Str)
  bodyTemplate : Str
  onlyIfVarsNonEmpty : Bool
  timeout : Int
  enabled : Bool
deriving DecidableEq

/-- `config.Reminder`.  `datetime` is an absolute instant (Go `time.Time`),
modelled as an integer timestamp. -/
structure Reminder where
  id : Str
  text : Str
  datetime : Int
deriving DecidableEq

/-- `config.CronJob`. -/
structure CronJob where
  id : Str
  name : Str
  schedule : Str
  enabled : Bool
  primary : WebhookConfig
  secondary : Option WebhookConfig
  saveOutput : Bool
  description : Str
  reminders : List Reminder
deriving DecidableEq

/-- First job with the given id, as `config.GetJob` and the loop in
`config.DeleteReminder` find it. -/
def findJob (jobID : Str) : List CronJob → Option CronJob
  | [] => none
  | j :: rest => if j.id = jobID then some j else findJob jobID rest

/-- `config.DeleteReminder` (config.go lines 121-151): finds the first job
with the given id, errors when no job or no reminder with the given id
exists, otherwise removes every reminder with that id from the job. -/
def deleteReminderRepo (jobID reminderID : Str) :
    List CronJob → Except Str (List CronJob)
  | [] => .error "job not found".toList
  | j :: rest =>
    if j.id = jobID then
      if j.reminders.all (fun r => r.id ≠ reminderID) then
        .error "reminder not found".toList
      else
        .ok ({ j with reminders := j.reminders.filter (fun r => r.id ≠ reminderID) } :: rest)
    else (deleteReminderRepo jobID reminderID rest).map (j :: ·)

/-! ### Webhook execution (`executeWebhook`, scheduler.go lines 582-657) -/

/-- The observable outcome of one HTTP transaction: a transport-level
failure (DNS, connection, timeout, or request construction), or a response
with a status code and body.  The transaction itself is performed by
`net/http`; the model takes its outcome as an input. -/
inductive HttpResult where
  | transportError (msg : Str)
  | response (status : Nat) (body : Str)
deriving DecidableEq

/-- The error classification of `executeWebhook`. -/
inductive WebhookError where
  | transport (msg : Str)
  | status (code : Nat) (body : Str)
deriving DecidableEq

/-- `executeWebhook` (scheduler.go lines 582-657): transport failures
surface as errors; a received response with status at least 400 is
classified as a failure carrying the status code and response body
(line 650-653); otherwise the full response body is returned. -/
def executeWebhook (_webhook : WebhookConfig) (r : HttpResult) :
    Except WebhookError Str :=
  match r with
  | .transportError m => .error (.transport m)
  | .response code body =>
    if code ≥ 400 then .error (.status code body) else .ok body

/-- The output cache `Scheduler.outputs`: most recent primary response per
job id. -/
abbrev Outputs := List (Str × Str)

/-! ### Cron job execution (`executeJob`, scheduler.go lines 326-451) -/

/-- `executeJob` (scheduler.go lines 326-451) as a function of the job
snapshot, the current output cache and the outcome of the primary HTTP
transaction.  It returns the new output cache and the list of webhook
configurations actually sent, in order (the secondary call's outcome is
only logged and affects no state, so its transaction is not an input). -/
def executeJob (job : CronJob) (outputs : Outputs) (r1 : HttpResult) :
    Outputs × List WebhookConfig :=
  match executeWebhook job.primary r1 with
  | .error _ => (outputs, [job.primary])
  | .ok output =>
    let outputs1 :=
      if job.saveOutput ∧ output ≠ [] then minsert job.id output outputs else outputs
    match job.secondary with
    | none => (outputs1, [job.primary])
    | some sec =>
      if ¬ sec.enabled then (outputs1, [job.primary])
      else if job.saveOutput then
        let data := (mlookup job.id outputs1).getD []
        if data ≠ [] then
          let vars : VarMap :=
            if sec.jqSelectors ≠ [] then
              match extractVariables data sec.jqSelectors with
              | .ok vs => vs
              | .error _ => []
            else []
          let secondary :=
            if sec.bodyTemplate ≠ [] then
              match processTemplate sec.bodyTemplate vars with
              | .ok pb => { sec with body := pb }
              | .error _ => { sec with body := data }
            else { sec with body := data }
          (outputs1, [job.primary, secondary])
        else (outputs1, [job.primary])
      else (outputs1, [job.primary, sec])

/-! ### Scheduler state and operations (scheduler.go lines 20-151) -/

/-- The scheduler's mutable state: the job-id to cron-entry registry, the
live cron entries (entry id paired with the job id it fires), the cron
library's next entry id, the reminder timers keyed by composite string,
the output cache, the configuration repository, and a count of
configuration saves. -/
structure SchedState where
  jobs : List (Str × Nat)
  entries : List (Nat × Str)
  nextId : Nat
  timers : List (Str × Int)
  outputs : Outputs
  repo : List CronJob
  saves : Nat
deriving DecidableEq

/-- The freshly constructed scheduler over a repository. -/
def initState (repo0 : List CronJob) : SchedState :=
  ⟨[], [], 0, [], [], repo0, 0⟩

/-- The underscore separator used to build composite timer keys. -/
def und : Str := "_".toList

/-- The composite timer key `jobID + "_" + reminderID`. -/
def timerKey (jobID reminderID : Str) : Str := jobID ++ und ++ reminderID

/-- `scheduleReminder` (scheduler.go lines 132-151): a reminder whose
datetime is before now is skipped (nothing changes); otherwise a one-shot
timer holding the remaining duration is installed under the composite
key. -/
def scheduleReminder (now : Int) (job : CronJob) (r : Reminder)
    (st : SchedState) : SchedState :=
  if r.datetime < now then st
  else { st with timers := minsert (timerKey job.id r.id) (r.datetime - now) st.timers }

/-- `removeJobReminders` (scheduler.go lines 109-117): stops and removes
every timer whose key has the prefix `jobID + "_"`. -/
def removeJobRemindersOp (jobID : Str) : List (Str × Int) → List (Str × Int)
  | [] => []
  | (k, v) :: rest =>
    if startsWithB (jobID ++ und) k then removeJobRemindersOp jobID rest
    else (k, v) :: removeJobRemindersOp jobID rest

/-- `cron.Remove`: drop the entry with the given entry id from the live
entries. -/
def removeEntry (e : Nat) : List (Nat × Str) → List (Nat × Str)
  | [] => []
  | p :: rest => if p.1 = e then removeEntry e rest else p :: removeEntry e rest

/-- `AddJob` (scheduler.go lines 53-90): removes any existing trigger for
the job id, removes the job's reminder timers, then — unless the job is
disabled or its schedule fails to parse (`valid` models the cron
expression parser of the external cron library) — installs a fresh
recurring trigger and schedules the job's reminders. -/
def addJob (valid : Str → Bool) (now : Int) (job : CronJob)
    (st : SchedState) : SchedState :=
  let st1 :=
    match mlookup job.id st.jobs with
    | some e => { st with entries := removeEntry e st.entries, jobs := merase job.id st.jobs }
    | none => st
  let st2 := { st1 with timers := removeJobRemindersOp job.id st1.timers }
  if ¬ job.enabled then st2
  else if ¬ valid job.schedule then st2
  else
    let e := st2.nextId
    let st3 := { st2 with
      entries := st2.entries ++ [(e, job.id)],
      nextId := e + 1,
      jobs := minsert job.id e st2.jobs }
    job.reminders.foldl (fun s r => scheduleReminder now job r s) st3

/-- `RemoveJob` (scheduler.go lines 92-106): when the job id has a live
trigger, removes it together with the job's cached output; then removes
the job's reminder timers. -/
def removeJob (jobID : Str) (st : SchedState) : SchedState :=
  let st1 :=
    match mlookup jobID st.jobs with
    | some e => { st with
        entries := removeEntry e st.entries,
        jobs := merase jobID st.jobs,
        outputs := merase jobID st.outputs }
    | none => st
  { st1 with timers := removeJobRemindersOp jobID st1.timers }

/-- `removeReminder` (scheduler.go lines 120-129): stops and removes one
timer by its composite key. -/
def removeReminderOp (jobID reminderID : Str) (st : SchedState) : SchedState :=
  { st with timers := merase (timerKey jobID reminderID) st.timers }

/-! ### Reminder firing (`executeReminder`, scheduler.go lines 154-324) -/

/-- The variable name `message`. -/
def msgKey : Str := "message".toList

/-- The synthesized minimal JSON body used by `executeReminder` when there
is neither a response nor a template nor a body. -/
def fallbackReminderBody (t : Str) : Str :=
  lb :: ("\"reminder\": \"".toList ++ t ++ "\", \"message\": \"".toList ++ t
    ++ "\"".toList) ++ [rb]

/-- `executeReminder` (scheduler.go lines 154-324) as a function of the job
and reminder snapshots, the primary HTTP transaction outcome and the
scheduler state.  Returns the new state and the webhook configurations
sent, in order.  After the calls, the timer is dropped, the reminder is
deleted from the repository, and on successful deletion the configuration
is saved (the secondary call's outcome is only logged). -/
def executeReminder (job : CronJob) (reminder : Reminder) (r1 : HttpResult)
    (st : SchedState) : SchedState × List WebhookConfig :=
  let rw :=
    if job.primary.body ≠ [] then
      match processTemplate job.primary.body [(remKey, .str reminder.text)] with
      | .ok pb => { job.primary with body := pb }
      | .error _ => job.primary
    else job.primary
  let primaryResponse :=
    match executeWebhook rw r1 with
    | .ok s => s
    | .error _ => []
  let calls2 : List WebhookConfig :=
    match job.secondary with
    | some sec =>
      if sec.enabled then
        let sw :=
          if primaryResponse ≠ [] then
            let vars0 : VarMap :=
              if sec.jqSelectors ≠ [] then
                match extractVariables primaryResponse sec.jqSelectors with
                | .ok vs => vs
                | .error _ => []
              else []
            let vars1 := minsert remKey (.str reminder.text) vars0
            let vars2 :=
              if (mlookup msgKey vars1).isNone
              then minsert msgKey (.str primaryResponse) vars1
              else vars1
            if sec.bodyTemplate ≠ [] then
              match processTemplate sec.bodyTemplate vars2 with
              | .ok pb => { sec with body := pb }
              | .error _ => { sec with body := primaryResponse }
            else if sec.body ≠ [] then
              match processTemplate sec.body vars2 with
              | .ok pb => { sec with body := pb }
              | .error _ => sec
            else { sec with body := primaryResponse }
          else
            let vars : VarMap :=
              [(remKey, .str reminder.text), (msgKey, .str reminder.text)]
            if sec.bodyTemplate ≠ [] then
              match processTemplate sec.bodyTemplate vars with
              | .ok pb => { sec with body := pb }
              | .error _ => { sec with body := fallbackReminderBody reminder.text }
            else if sec.body ≠ [] then
              match processTemplate sec.body vars with
              | .ok pb => { sec with body := pb }
              | .error _ => sec
            else { sec with body := fallbackReminderBody reminder.text }
        [sw]
      else []
    | none => []
  let timers1 := merase (timerKey job.id reminder.id) st.timers
  match deleteReminderRepo job.id reminder.id st.repo with
  | .ok repo2 =>
    ({ st with timers := timers1, repo := repo2, saves := st.saves + 1 }, rw :: calls2)
  | .error _ => ({ st with timers := timers1 }, rw :: calls2)

/-! ### Reachable scheduler states -/

/-- One scheduler transition: a job upsert, a job removal, a single
reminder removal, an output-cache write by a firing job, or a reminder
timer firing. -/
inductive Step (valid : Str → Bool) : SchedState → SchedState → Prop where
  | add (now : Int) (job : CronJob) (st : SchedState) :
      Step valid st (addJob valid now job st)
  | remove (jobID : Str) (st : SchedState) : Step valid st (removeJob jobID st)
  | removeRem (jobID reminderID : Str) (st : SchedState) :
      Step valid st (removeReminderOp jobID reminderID st)
  | cache (jobID out : Str) (st : SchedState) :
      Step valid st { st with outputs := minsert jobID out st.outputs }
  | fire (job : CronJob) (reminder : Reminder) (r1 : HttpResult) (st : SchedState) :
      Step valid st (executeReminder job reminder r1 st).1

/-- States reachable from a freshly constructed scheduler. -/
inductive Reachable (valid : Str → Bool) (repo0 : List CronJob) : SchedState → Prop where
  | init : Reachable valid repo0 (initState repo0)
  | step {s s' : SchedState} : Reachable valid repo0 s → Step valid s s' →
      Reachable valid repo0 s'

/-! ### Basic map lemmas -/

theorem mlookup_minsert_self {α : Type} (k : Str) (v : α) (m : List (Str × α)) :
    mlookup k (minsert k v m) = some v := by
  simp [minsert, mlookup]

theorem mlookup_merase_self {α : Type} (k : Str) (m : List (Str × α)) :
    mlookup k (merase k m) = none := by
  induction m with
  | nil => simp [merase, mlookup]
  | cons p rest ih =>
    obtain ⟨k', v⟩ := p
    by_cases h : k' = k
    · simpa [merase, h] using ih
    · simp [merase, mlookup, h, ih]

theorem mlookup_merase_ne {α : Type} (k k' : Str) (m : List (Str × α))
    (h : k ≠ k') : mlookup k' (merase k m) = mlookup k' m := by
  induction m with
  | nil => simp [merase]
  | cons p rest ih =>
    obtain ⟨k₀, v⟩ := p
    by_cases hk : k₀ = k
    · subst hk
      simp [merase, mlookup, h, ih]
    · simp [merase, mlookup, hk, ih]

theorem mlookup_minsert_ne {α : Type} (k k' : Str) (v : α) (m : List (Str × α))
    (h : k ≠ k') : mlookup k' (minsert k v m) = mlookup k' m := by
  simp [minsert, mlookup, h, mlookup_merase_ne k k' m h]

/-! ### Concrete fixtures used by witnesses and counterexamples -/

/-- A basic webhook configuration used by the concrete scenarios. -/
def baseHook : WebhookConfig :=
  { url := "http://example/a".toList, method := "POST".toList, headers := [],
    body := [], jqSelectors := [], bodyTemplate := [],
    onlyIfVarsNonEmpty := false, timeout := 0, enabled := false }

/-- A basic enabled job with no secondary webhook. -/
def jobA : CronJob :=
  { id := "a".toList, name := "A".toList, schedule := "* * * * *".toList,
    enabled := true, primary := baseHook, secondary := none,
    saveOutput := false, description := [], reminders := [] }

/-! ### C1 -/

/-- C1: when the primary webhook execution fails — in particular whenever
the HTTP response has status at least 400, which `executeWebhook`
classifies as a failure carrying the status code and response body — the
job execution stops immediately: the output cache is unchanged and the
secondary webhook is never sent (the only call made is the primary). -/
theorem C1_primary_failure_stops (job : CronJob) (outputs : Outputs)
    (status : Nat) (body : Str) (h : 400 ≤ status) :
    executeWebhook job.primary (.response status body)
        = .error (.status status body)
    ∧ executeJob job outputs (.response status body) = (outputs, [job.primary])
    ∧ ∀ msg, executeJob job outputs (.transportError msg) = (outputs, [job.primary]) := by
  refine ⟨?_, ?_, ?_⟩
  · simp [executeWebhook, h]
  · simp [executeJob, executeWebhook, h]
  · intro msg
    simp [executeJob, executeWebhook]

/-- Witness for C1 at a concrete job and an HTTP 500 response. -/
theorem C1_witness :
    executeJob jobA [] (.response 500 "oops".toList) = ([], [jobA.primary]) :=
  (C1_primary_failure_stops jobA [] 500 "oops".toList (by decide)).2.1

/-! ### C5 -/

/-- The secondary configuration of the C5 scenario: enabled, with both a
literal body and a non-empty template. -/
def secC5 : WebhookConfig :=
  { baseHook with enabled := true, body := "B".toList, bodyTemplate := "T".toList }

/-- The C5 scenario job: `saveOutput` false, enabled secondary. -/
def jobC5 : CronJob :=
  { jobA with id := "c5".toList, secondary := some secC5 }

/-- Counterexample to C5 as stated: with `saveOutput` false and a secondary
whose `bodyTemplate` is non-empty, the claim says the secondary body is the
template rendered against an empty mapping — here the rendering is the
unchanged template text `T` — but the code sends the secondary
configuration completely unchanged, with `body` `B` and the template
ignored. -/
theorem C5_counterexample :
    executeJob jobC5 [] (.response 200 "out".toList) = ([], [jobC5.primary, secC5])
    ∧ processTemplate secC5.bodyTemplate [] = .ok "T".toList
    ∧ secC5.body ≠ "T".toList := by decide

/-- C5 (amended): for every cron job firing with an enabled secondary and
`saveOutput` false, no variable extraction occurs and the secondary
webhook is executed with the secondary configuration exactly as stored —
`secondary.body` as-is; `secondary.bodyTemplate` is not rendered in this
path — and the output cache is unchanged. -/
theorem C5_amended (job : CronJob) (outputs : Outputs) (sec : WebhookConfig)
    (r1 : HttpResult) (out : Str)
    (h1 : job.saveOutput = false) (h2 : job.secondary = some sec)
    (h3 : sec.enabled = true) (h4 : executeWebhook job.primary r1 = .ok out) :
    executeJob job outputs r1 = (outputs, [job.primary, sec]) := by
  simp [executeJob, h1, h2, h3, h4]

/-- Witness for the amended C5 at the concrete scenario job. -/
theorem C5_witness :
    executeJob jobC5 [] (.response 200 "out".toList) = ([], [jobC5.primary, secC5]) :=
  C5_amended jobC5 [] secC5 (.response 200 "out".toList) "out".toList
    (by decide) (by decide) (by decide) (by decide)

/-! ### C2 -/

/-- The secondary request body as the claim words it: variables are
extracted from the cached output using the secondary's jq selectors, and
the body is the `bodyTemplate` rendered with those variables when the
template is non-empty, otherwise the raw cached output verbatim. -/
def claimSecondaryBody (sec : WebhookConfig) (cached : Str) : Str :=
  let vars : VarMap :=
    match extractVariables cached sec.jqSelectors with
    | .ok vs => vs
    | .error _ => []
  if sec.bodyTemplate ≠ [] then
    match processTemplate sec.bodyTemplate vars with
    | .ok pb => pb
    | .error _ => cached
  else cached

/-- The variable mapping computed inside `executeJob` (which skips the
extractor entirely for an empty selector set) equals the mapping of the
claim's wording (extraction over whatever selectors there are; an empty
selector set yields the empty mapping, not an error). -/
theorem executeJob_vars_eq (sec : WebhookConfig) (cached : Str) :
    (if sec.jqSelectors ≠ [] then
      match extractVariables cached sec.jqSelectors with
      | .ok vs => vs
      | .error _ => []
    else [])
    = (match extractVariables cached sec.jqSelectors with
        | .ok vs => vs
        | .error _ => []) := by
  by_cases hs : sec.jqSelectors = []
  · simp [hs, extractVariables]
  · simp [hs]

/-- The strings of the C2 scenario. -/
def dataC2 : Str := "\x7b\"status\":\"ok\"\x7d".toList

/-- The C2 scenario secondary body template. -/
def tmplC2 : Str := "\x7b\"result\":\"\x7b\x7bs\x7d\x7d\"\x7d".toList

/-- The C2 scenario expected secondary body. -/
def outC2 : Str := "\x7b\"result\":\"ok\"\x7d".toList

/-- The C2 scenario secondary configuration. -/
def secC2 : WebhookConfig :=
  { baseHook with
    enabled := true,
    jqSelectors := [("s".toList, ".status".toList)],
    bodyTemplate := tmplC2 }

/-- The C2 scenario job. -/
def jobC2 : CronJob :=
  { jobA with id := "c2".toList, saveOutput := true, secondary := some secC2 }

/-- C2: for every cron job firing with `saveOutput` true, a non-empty
primary output (which is cached) and an enabled secondary, the secondary
is sent with the body of the claim's wording (`claimSecondaryBody`):
variables extracted via the secondary's jq selectors, the rendered
`bodyTemplate` when non-empty, otherwise the raw cached output verbatim.
In particular, in the scenario where the primary returns the JSON object
mapping status to ok, the selectors map `s` to `.status` and the template
wraps `s` in a result field, the secondary body sent is the JSON object
mapping result to ok. -/
theorem C2_secondary_chaining (job : CronJob) (outputs : Outputs)
    (sec : WebhookConfig) (r1 : HttpResult) (out : Str)
    (h1 : job.saveOutput = true) (h2 : job.secondary = some sec)
    (h3 : sec.enabled = true) (h4 : executeWebhook job.primary r1 = .ok out)
    (h5 : out ≠ []) :
    executeJob job outputs r1
      = (minsert job.id out outputs,
         [job.primary, { sec with body := claimSecondaryBody sec out }])
    ∧ executeJob jobC2 [] (.response 200 dataC2)
      = ([("c2".toList, dataC2)], [jobC2.primary, { secC2 with body := outC2 }]) := by
  constructor
  · simp only [executeJob, h4, h1, h2, h3]
    simp only [claimSecondaryBody, executeJob_vars_eq]
    simp [h5, mlookup_minsert_self]
    by_cases ht : sec.bodyTemplate = []
    · simp [ht]
    · simp [ht]
      split <;> simp [*]
  · decide

/-- Witness for C2 at the concrete scenario. -/
theorem C2_witness :
    executeJob jobC2 [] (.response 200 dataC2)
      = ([("c2".toList, dataC2)], [jobC2.primary, { secC2 with body := outC2 }]) :=
  (C2_secondary_chaining jobC2 [] secC2 (.response 200 dataC2) dataC2
    (by decide) (by decide) (by decide) (by decide) (by decide)).2

/-! ### C3 -/

/-- A reminder dated strictly in the past of the scenarios (now = 5). -/
def rPast : Reminder := { id := "r".toList, text := "t".toList, datetime := 4 }

/-- A reminder dated exactly at the scenarios' current time (now = 5). -/
def rNow : Reminder := { id := "r".toList, text := "t".toList, datetime := 5 }

/-- Counterexample to C3 as stated: a reminder whose datetime equals the
current time (duration exactly 0) is claimed to be skipped, but the code's
strict `Before` comparison schedules it — a timer with duration 0 is
installed under the composite key. -/
theorem C3_counterexample :
    rNow.datetime ≤ 5
    ∧ (scheduleReminder 5 jobA rNow (initState [])).timers
        = [(timerKey "a".toList "r".toList, 0)] := by decide

/-- C3 (amended): a reminder strictly in the past of the current time is
skipped — the scheduler state is returned unchanged, so no timer is
installed and in particular the job record in the repository is untouched;
a reminder at or after the current time (duration at least 0, including
exactly now) gets a one-shot timer installed under the composite key
holding the remaining duration; the repository is never touched. -/
theorem C3_amended (now : Int) (job : CronJob) (r : Reminder) (st : SchedState) :
    (r.datetime < now → scheduleReminder now job r st = st)
    ∧ (now ≤ r.datetime →
        (scheduleReminder now job r st).timers
          = minsert (timerKey job.id r.id) (r.datetime - now) st.timers)
    ∧ (scheduleReminder now job r st).repo = st.repo := by
  refine ⟨fun h => ?_, fun h => ?_, ?_⟩
  · simp [scheduleReminder, h]
  · simp [scheduleReminder, not_lt.mpr h]
  · by_cases h : r.datetime < now <;> simp [scheduleReminder, h]

/-- Witness for the amended C3: a past reminder leaves the state unchanged;
a reminder at exactly now installs its timer. -/
theorem C3_witness :
    scheduleReminder 5 jobA rPast (initState []) = initState []
    ∧ (scheduleReminder 5 jobA rNow (initState [])).timers
        = minsert (timerKey "a".toList "r".toList) 0 [] :=
  ⟨(C3_amended 5 jobA rPast (initState [])).1 (by decide),
   (C3_amended 5 jobA rNow (initState [])).2.1 (by decide)⟩

/-! ### C4 -/

theorem deleteReminderRepo_spec (jobID reminderID : Str) (repo : List CronJob)
    (j0 : CronJob) (hfind : findJob jobID repo = some j0)
    (hrem : j0.reminders.any (fun r => r.id = reminderID) = true) :
    ∃ repo2, deleteReminderRepo jobID reminderID repo = .ok repo2
      ∧ findJob jobID repo2
          = some { j0 with reminders := j0.reminders.filter (fun r => r.id ≠ reminderID) } := by
  induction repo with
  | nil => simp [findJob] at hfind
  | cons j rest ih =>
    by_cases hj : j.id = jobID
    · have hj0 : j = j0 := by simpa [findJob, hj] using hfind
      subst hj0
      have hall : ¬ (j.reminders.all (fun r => r.id ≠ reminderID) = true) := by
        obtain ⟨r, hmem, hr⟩ := List.any_eq_true.mp hrem
        intro hcon
        exact (of_decide_eq_true (List.all_eq_true.mp hcon r hmem))
          (of_decide_eq_true hr)
      refine ⟨{ j with reminders := j.reminders.filter (fun r => r.id ≠ reminderID) } :: rest, ?_, ?_⟩
      · simp only [deleteReminderRepo, hj, if_pos, if_neg hall]
      · simp [findJob, hj]
    · have hfind' : findJob jobID rest = some j0 := by
        simpa [findJob, hj] using hfind
      obtain ⟨repo2, hdel, hfind2⟩ := ih hfind'
      refine ⟨j :: repo2, ?_, ?_⟩
      · simp [deleteReminderRepo, hj, hdel, Except.map]
      · simp [findJob, hj, hfind2]

/-- C4: after a reminder's timer fires, whatever the outcome of the primary
HTTP transaction (and thus of both webhook calls), the timer is dropped,
the reminder is removed from its owning job's record in the repository,
and the configuration is persisted (the save counter increments) —
provided the repository holds the owning job with that reminder. -/
theorem C4_fire_deletes_and_saves (job : CronJob) (reminder : Reminder)
    (r1 : HttpResult) (st : SchedState) (j0 : CronJob)
    (hfind : findJob job.id st.repo = some j0)
    (hrem : j0.reminders.any (fun r => r.id = reminder.id) = true) :
    mlookup (timerKey job.id reminder.id) (executeReminder job reminder r1 st).1.timers = none
    ∧ (executeReminder job reminder r1 st).1.saves = st.saves + 1
    ∧ findJob job.id (executeReminder job reminder r1 st).1.repo
        = some { j0 with reminders := j0.reminders.filter (fun r => r.id ≠ reminder.id) } := by
  obtain ⟨repo2, hdel, hfind2⟩ :=
    deleteReminderRepo_spec job.id reminder.id st.repo j0 hfind hrem
  refine ⟨?_, ?_, ?_⟩ <;>
    simp [executeReminder, hdel, mlookup_merase_self, hfind2]

/-- A reminder fixture owned by the C4 witness job. -/
def rFut : Reminder := { id := "r".toList, text := "hello".toList, datetime := 9 }

/-- The C4 witness job: `jobA` carrying one reminder. -/
def jobR : CronJob := { jobA with reminders := [rFut] }

/-- Witness for C4: firing the reminder of a concrete one-job repository
removes it from the job record, saves once, and leaves no timer, even
though the primary transaction failed with HTTP 500. -/
theorem C4_witness :
    mlookup (timerKey "a".toList "r".toList)
        (executeReminder jobR rFut (.response 500 "err".toList) (initState [jobR])).1.timers = none
    ∧ (executeReminder jobR rFut (.response 500 "err".toList) (initState [jobR])).1.saves = 1
    ∧ findJob "a".toList
        (executeReminder jobR rFut (.response 500 "err".toList) (initState [jobR])).1.repo
        = some { jobR with reminders := [] } := by
  have h := C4_fire_deletes_and_saves jobR rFut (.response 500 "err".toList)
    (initState [jobR]) jobR (by decide) (by decide)
  refine ⟨h.1, h.2.1, ?_⟩
  have h2 := h.2.2
  simpa using h2

/-! ### C7 -/

/-- What one selector contributes under the code's semantics: the selector
must parse, and its first non-error yielded result (if any) is kept. -/
def selectorContrib (data : Json) (sel : Str) : Option GoVal :=
  (parseSelector sel).bind fun q => (firstOk (jqRun q data)).map toGoVal

/-- The C7 counterexample document text. -/
def dataC7 : Str := "[1,\x7b\"s\":\"ok\"\x7d]".toList

/-- The C7 counterexample document, decoded. -/
def jsonC7 : Json :=
  .arr (.cons (.num 1) (.cons (.obj (.cons "s".toList (.str "ok".toList) .nil)) .nil))

/-- Counterexample to C7 as stated: for the selector `.[].s` over
`[1,{"s":"ok"}]`, the first yielded result of the evaluation is an error
(indexing the number 1), i.e. the selector raises during evaluation — the
claim says such a selector is skipped and contributes at most its first
yielded result — yet the code extracts `ok` for `s` from the second
yielded result. -/
theorem C7_counterexample :
    extractVariables dataC7 [("s".toList, ".[].s".toList)]
      = .ok [("s".toList, .str "ok".toList)]
    ∧ parseSelector ".[].s".toList = some (.pipe .iter (.field "s".toList))
    ∧ unmarshal dataC7 = some jsonC7
    ∧ (jqRun (.pipe .iter (.field "s".toList)) jsonC7).head?
        = some (.error ("cannot index with s".toList)) := by decide

theorem extractStep_eq_contrib (data : Json) (vars : VarMap) (p : Str × Str) :
    extractStep data vars p
      = match selectorContrib data p.2 with
        | some gv => minsert p.1 gv vars
        | none => vars := by
  cases hq : parseSelector p.2 with
  | none => simp [extractStep, selectorContrib, hq]
  | some q =>
    cases hf : firstOk (jqRun q data) with
    | none => simp [extractStep, selectorContrib, hq, hf]
    | some v => simp [extractStep, selectorContrib, hq, hf]

theorem extract_foldl_lookup (data : Json) (l : List (Str × Str)) (acc : VarMap)
    (hnd : (l.map Prod.fst).Nodup) :
    (∀ p ∈ l, mlookup p.1 (l.foldl (extractStep data) acc)
      = match selectorContrib data p.2 with
        | some gv => some gv
        | none => mlookup p.1 acc)
    ∧ ∀ name, name ∉ l.map Prod.fst →
        mlookup name (l.foldl (extractStep data) acc) = mlookup name acc := by
  induction l generalizing acc with
  | nil => simp
  | cons p t ih =>
    rw [List.map_cons, List.nodup_cons] at hnd
    have hp : p.1 ∉ t.map Prod.fst := hnd.1
    have hnd' : (t.map Prod.fst).Nodup := hnd.2
    obtain ⟨ih1, ih2⟩ := ih (extractStep data acc p) hnd'
    refine ⟨?_, ?_⟩
    · intro q hq
      rw [List.foldl_cons]
      rcases List.mem_cons.mp hq with hq | hq
      · subst hq
        rw [ih2 q.1 hp, extractStep_eq_contrib]
        cases hc : selectorContrib data q.2 with
        | none => simp [hc]
        | some gv => simp [hc, mlookup_minsert_self]
      · have hq1 : q.1 ≠ p.1 := by
          intro hcon
          exact hp (hcon ▸ List.mem_map_of_mem Prod.fst hq)
        rw [ih1 q hq]
        cases hc : selectorContrib data q.2 with
        | some gv => rfl
        | none =>
          simp only [hc]
          rw [extractStep_eq_contrib]
          cases hcp : selectorContrib data p.2 with
          | none => rfl
          | some gv => simp [mlookup_minsert_ne _ _ _ _ (Ne.symm hq1)]
    · intro name hname
      have hname1 : name ≠ p.1 := by
        intro hcon
        exact hname (by simp [hcon])
      have hnamet : name ∉ t.map Prod.fst := by
        intro hcon
        exact hname (by simp [hcon])
      rw [List.foldl_cons, ih2 name hnamet, extractStep_eq_contrib]
      cases hcp : selectorContrib data p.2 with
      | none => rfl
      | some gv => simp [mlookup_minsert_ne _ _ _ _ (Ne.symm hname1)]

/-- C7 (amended): over valid JSON input and selectors with pairwise
distinct names, extraction returns a mapping in which each named selector
contributes exactly its first non-error yielded result (error results are
passed over individually and evaluation continues with the selector's
later results); a selector that fails to parse, yields no results, or
yields only errors leaves its name absent from the mapping (never set to
null), without preventing extraction for the remaining selectors. -/
theorem C7_amended (jsonData : Str) (selectors : List (Str × Str)) (data : Json)
    (hdata : unmarshal jsonData = some data)
    (hnd : (selectors.map Prod.fst).Nodup) :
    ∃ m, extractVariables jsonData selectors = .ok m
      ∧ (∀ name sel, (name, sel) ∈ selectors →
          mlookup name m = selectorContrib data sel)
      ∧ ∀ name, name ∉ selectors.map Prod.fst → mlookup name m = none := by
  by_cases hsel : selectors = []
  · subst hsel
    exact ⟨[], by simp [extractVariables], by simp, by simp [mlookup]⟩
  · refine ⟨selectors.foldl (extractStep data) [], ?_, ?_, ?_⟩
    · simp [extractVariables, hsel, hdata]
    · intro name sel hmem
      have h1 := (extract_foldl_lookup data selectors [] hnd).1 (name, sel) hmem
      rw [h1]
      cases selectorContrib data sel with
      | none => rfl
      | some gv => rfl
    · intro name hname
      have h2 := (extract_foldl_lookup data selectors [] hnd).2 name hname
      rw [h2]
      rfl

/-- Witness for the amended C7: one unparsable selector and one good one
over the status document — the unparsable name is absent, the good one is
extracted, neither interfering with the other. -/
theorem C7_witness :
    ∃ m, extractVariables dataC2
        [("bad".toList, "(((".toList), ("s".toList, ".status".toList)] = .ok m
      ∧ (∀ name sel,
          (name, sel) ∈ [("bad".toList, "(((".toList), ("s".toList, ".status".toList)] →
          mlookup name m
            = selectorContrib (.obj (.cons "status".toList (.str "ok".toList) .nil)) sel)
      ∧ ∀ name,
          name ∉ [("bad".toList, "(((".toList), ("s".toList, ".status".toList)].map Prod.fst →
          mlookup name m = none :=
  C7_amended dataC2 [("bad".toList, "(((".toList), ("s".toList, ".status".toList)]
    (.obj (.cons "status".toList (.str "ok".toList) .nil)) (by decide) (by decide)

/-! ### C8 -/

theorem tmplStep_nil (p : Str × GoVal) : tmplStep [] p = [] := by
  by_cases h : p.1 = remKey
  · simp [tmplStep, h]
  · simp [tmplStep, h, containsSub, placeholderOf]

theorem foldl_tmplStep_nil (m : VarMap) : m.foldl tmplStep [] = [] := by
  induction m with
  | nil => rfl
  | cons p t ih => rw [List.foldl_cons, tmplStep_nil, ih]

theorem foldl_tmplStep_id (t : Str) (m : VarMap)
    (h : ∀ p ∈ m, containsSub t (placeholderOf p.1) = false) :
    m.foldl tmplStep t = t := by
  induction m with
  | nil => rfl
  | cons p rest ih =>
    have hstep : tmplStep t p = t := by
      by_cases hk : p.1 = remKey
      · simp [tmplStep, hk]
      · simp [tmplStep, hk, h p (by simp)]
    rw [List.foldl_cons, hstep]
    exact ih fun q hq => h q (by simp [hq])

/-- A string containing neither curly brace; ordinary variable names are
brace-free (a name containing a brace makes its placeholder text
ambiguous). -/
def braceFree (s : Str) : Bool := s.all fun c => ¬ (c = lb ∨ c = rb)

theorem braceFree_mem {s : Str} (h : braceFree s = true) {c : Char} (hc : c ∈ s) :
    c ≠ lb ∧ c ≠ rb := by
  have h2 := of_decide_eq_true (List.all_eq_true.mp h c hc)
  exact ⟨fun h3 => h2 (Or.inl h3), fun h3 => h2 (Or.inr h3)⟩

theorem braceFree_cons {c : Char} {s : Str} (h : braceFree (c :: s) = true) :
    braceFree s = true := by
  simp only [braceFree, List.all_cons, Bool.and_eq_true] at h
  exact h.2

theorem lb_ne_rb : lb ≠ rb := by decide

theorem rb_ne_lb : rb ≠ lb := by decide

theorem startsWithB_append_self (p r : Str) : startsWithB p (p ++ r) = true := by
  induction p with
  | nil => rfl
  | cons c t ih => simp [startsWithB, ih]

theorem exists_of_startsWithB {p s : Str} (h : startsWithB p s = true) :
    ∃ r, s = p ++ r := by
  induction p generalizing s with
  | nil => exact ⟨s, rfl⟩
  | cons c t ih =>
    cases s with
    | nil => simp [startsWithB] at h
    | cons d u =>
      simp only [startsWithB, Bool.and_eq_true, decide_eq_true_eq] at h
      obtain ⟨r, hr⟩ := ih h.2
      exact ⟨r, by rw [List.cons_append, ← h.1, hr]⟩

theorem replaceAllF_nil_pat (n : Nat) (s rep : Str) :
    replaceAllF n s [] rep = s := by
  cases n <;> cases s <;> rfl

theorem replaceAllF_nil_s (n : Nat) (p : Char) (ps rep : Str) :
    replaceAllF n [] (p :: ps) rep = [] := by
  cases n <;> rfl

theorem replaceAllF_fuel_eq (pat rep : Str) :
    ∀ (n m : Nat) (s : Str), s.length ≤ n → s.length ≤ m →
      replaceAllF n s pat rep = replaceAllF m s pat rep := by
  intro n
  induction n with
  | zero =>
    intro m s hn _
    have hs : s = [] := List.eq_nil_of_length_eq_zero (Nat.le_zero.mp hn)
    subst hs
    cases pat with
    | nil => rw [replaceAllF_nil_pat, replaceAllF_nil_pat]
    | cons p ps => rw [replaceAllF_nil_s, replaceAllF_nil_s]
  | succ n ih =>
    intro m s hn hm
    cases pat with
    | nil => rw [replaceAllF_nil_pat, replaceAllF_nil_pat]
    | cons p ps =>
      cases s with
      | nil => rw [replaceAllF_nil_s, replaceAllF_nil_s]
      | cons c t =>
        cases m with
        | zero => simp at hm
        | succ m' =>
          simp only [replaceAllF]
          by_cases hsw : startsWithB (p :: ps) (c :: t) = true
          · rw [if_pos hsw, if_pos hsw]
            congr 1
            apply ih
            · simp only [List.length_drop, List.length_cons] at hn ⊢
              omega
            · simp only [List.length_drop, List.length_cons] at hm ⊢
              omega
          · rw [if_neg hsw, if_neg hsw]
            congr 1
            apply ih
            · simp only [List.length_cons] at hn
              omega
            · simp only [List.length_cons] at hm
              omega

theorem replaceAllF_fuel {pat rep : Str} {n : Nat} {s : Str} (h : s.length ≤ n) :
    replaceAllF n s pat rep = replaceAll s pat rep :=
  replaceAllF_fuel_eq pat rep n s.length s h le_rfl

theorem replaceAll_nil (pat rep : Str) : replaceAll [] pat rep = [] := by
  cases pat <;> rfl

theorem replaceAll_cons_nomatch {pat : Str} {c : Char} {t rep : Str}
    (hpat : pat ≠ []) (hsw : ¬ startsWithB pat (c :: t) = true) :
    replaceAll (c :: t) pat rep = c :: replaceAll t pat rep := by
  cases pat with
  | nil => exact absurd rfl hpat
  | cons p ps =>
    show replaceAllF (t.length + 1) (c :: t) (p :: ps) rep = _
    simp only [replaceAllF]
    rw [if_neg hsw]
    rfl

theorem replaceAll_append_match (pat rest rep : Str) (hpat : pat ≠ []) :
    replaceAll (pat ++ rest) pat rep = rep ++ replaceAll rest pat rep := by
  cases pat with
  | nil => exact absurd rfl hpat
  | cons p ps =>
    show replaceAllF ((p :: ps) ++ rest).length ((p :: ps) ++ rest) (p :: ps) rep = _
    rw [show (p :: ps) ++ rest = p :: (ps ++ rest) from rfl]
    simp only [List.length_cons]
    simp only [replaceAllF]
    rw [if_pos (by simpa using startsWithB_append_self (p :: ps) rest)]
    congr 1
    rw [show (p :: (ps ++ rest)).drop (p :: ps).length = rest by
      simp only [List.length_cons, List.drop_succ_cons]
      exact List.drop_left ps rest]
    apply replaceAllF_fuel
    simp

theorem replaceAll_copy_prefix (pat rep : Str) (hpat : pat ≠ []) :
    ∀ u rest, (∀ u2, List.IsSuffix u2 u → u2 ≠ [] →
        startsWithB pat (u2 ++ rest) = false) →
      replaceAll (u ++ rest) pat rep = u ++ replaceAll rest pat rep := by
  intro u
  induction u with
  | nil => intro rest _; simp
  | cons d u' ih =>
    intro rest h
    have h0 : startsWithB pat ((d :: u') ++ rest) = false :=
      h (d :: u') (List.suffix_refl _) (by simp)
    rw [List.cons_append,
      replaceAll_cons_nomatch hpat (by simp [show startsWithB pat (d :: (u' ++ rest)) = false from h0]),
      ih rest (fun u2 hsuf hne => h u2 (hsuf.trans (List.suffix_cons d u')) hne)]
    rfl

theorem replaceAll_of_not_contains {s pat rep : Str}
    (h : containsSub s pat = false) : replaceAll s pat rep = s := by
  cases pat with
  | nil =>
    cases s with
    | nil => rfl
    | cons c t => simp [containsSub, startsWithB] at h
  | cons p ps =>
    induction s with
    | nil => exact replaceAll_nil _ _
    | cons c t ih =>
      rw [containsSub, Bool.or_eq_false_iff] at h
      rw [replaceAll_cons_nomatch (by simp) (by simp [h.1]), ih h.2]

/-! Occurrences of placeholders of distinct brace-free names cannot
overlap: inside the text of one placeholder, no other placeholder match
can start.  These lemmas drive the preservation argument. -/

theorem placeholderOf_eq (z : Str) :
    placeholderOf z = lb :: lb :: (z ++ [rb, rb]) := rfl

theorem placeholderOf_ne_nil (z : Str) : placeholderOf z ≠ [] := by
  simp [placeholderOf_eq]

theorem placeholder_core_eq (x : Str) : ∀ (z rest : Str), braceFree x = true →
    braceFree z = true →
    startsWithB (x ++ [rb, rb]) (z ++ ([rb, rb] ++ rest)) = true → x = z := by
  induction x with
  | nil =>
    intro z rest _ hz h
    cases z with
    | nil => rfl
    | cons c z' =>
      exfalso
      simp only [List.nil_append, List.cons_append, startsWithB, Bool.and_eq_true,
        decide_eq_true_eq] at h
      exact (braceFree_mem hz (List.mem_cons_self c z')).2 h.1.symm
  | cons a x' ih =>
    intro z rest hx hz h
    cases z with
    | nil =>
      exfalso
      simp only [List.cons_append, List.nil_append, startsWithB, Bool.and_eq_true,
        decide_eq_true_eq] at h
      exact (braceFree_mem hx (List.mem_cons_self a x')).2 h.1
    | cons c z' =>
      simp only [List.cons_append, startsWithB, Bool.and_eq_true, decide_eq_true_eq] at h
      rw [h.1, ih z' rest (braceFree_cons hx) (braceFree_cons hz) h.2]

theorem placeholder_suffix_no_match (z x u2 rest : Str) (hz : braceFree z = true)
    (hx : braceFree x = true) (hne : x ≠ z)
    (hsuf : List.IsSuffix u2 (placeholderOf z)) (hne2 : u2 ≠ []) :
    startsWithB (placeholderOf x) (u2 ++ rest) = false := by
  rw [placeholderOf_eq] at hsuf
  rcases List.suffix_cons_iff.mp hsuf with h1 | hsuf1
  · subst h1
    by_contra hcon
    rw [Bool.not_eq_false] at hcon
    simp only [placeholderOf_eq, List.cons_append, startsWithB, Bool.and_eq_true,
      decide_eq_true_eq] at hcon
    refine hne (placeholder_core_eq x z rest hx hz ?_)
    rw [← List.append_assoc]
    exact hcon.2.2
  · rcases List.suffix_cons_iff.mp hsuf1 with h2 | hsuf2
    · subst h2
      cases z with
      | nil => simp [placeholderOf_eq, startsWithB, lb_ne_rb]
      | cons c z' =>
        have hc : lb ≠ c := fun hcc =>
          (braceFree_mem hz (List.mem_cons_self c z')).1 hcc.symm
        simp [placeholderOf_eq, startsWithB, hc]
    · cases u2 with
      | nil => exact absurd rfl hne2
      | cons c u2' =>
        have hcmem : c ∈ z ++ [rb, rb] := hsuf2.subset (List.mem_cons_self c u2')
        have hclb : lb ≠ c := by
          rcases List.mem_append.mp hcmem with hcz | hcr
          · exact fun hcc => (braceFree_mem hz hcz).1 hcc.symm
          · have hcr' : c = rb := by simpa using hcr
            rw [hcr']
            exact lb_ne_rb
        simp [placeholderOf_eq, startsWithB, hclb]

theorem infix_append_left (a : Str) {p w : Str} (h : List.IsInfix p w) :
    List.IsInfix p (a ++ w) := by
  obtain ⟨u, v, huv⟩ := h
  exact ⟨a ++ u, v, by rw [← huv]; simp⟩

theorem infix_cons (c : Char) {p w : Str} (h : List.IsInfix p w) :
    List.IsInfix p (c :: w) :=
  infix_append_left [c] h

theorem infix_cons_of_not_startsWith {pz : Str} {c : Char} {t : Str}
    (h : List.IsInfix pz (c :: t)) (hsw : ¬ startsWithB pz (c :: t) = true) :
    List.IsInfix pz t := by
  obtain ⟨u, v, huv⟩ := h
  cases u with
  | nil =>
    exfalso
    simp only [List.nil_append] at huv
    rw [← huv] at hsw
    exact hsw (startsWithB_append_self pz v)
  | cons d u' =>
    refine ⟨u', v, ?_⟩
    simp only [List.cons_append] at huv
    injection huv

/-- One `replaceAll` pass with the placeholder of a different brace-free
name (and an arbitrary replacement text) preserves every occurrence of
this name's placeholder. -/
theorem infix_preserved_replaceAll (z x rep : Str) (hz : braceFree z = true)
    (hx : braceFree x = true) (hne : z ≠ x) :
    ∀ (n : Nat) (s : Str), s.length ≤ n → List.IsInfix (placeholderOf z) s →
      List.IsInfix (placeholderOf z) (replaceAll s (placeholderOf x) rep) := by
  intro n
  induction n with
  | zero =>
    intro s hn hinf
    have hs : s = [] := List.eq_nil_of_length_eq_zero (Nat.le_zero.mp hn)
    subst hs
    obtain ⟨u, v, huv⟩ := hinf
    exact absurd (List.append_eq_nil.mp (List.append_eq_nil.mp huv).1).2
      (placeholderOf_ne_nil z)
  | succ n ih =>
    intro s hn hinf
    cases s with
    | nil =>
      obtain ⟨u, v, huv⟩ := hinf
      exact absurd (List.append_eq_nil.mp (List.append_eq_nil.mp huv).1).2
        (placeholderOf_ne_nil z)
    | cons c t =>
      by_cases hpz : startsWithB (placeholderOf z) (c :: t) = true
      · obtain ⟨rest, hrest⟩ := exists_of_startsWithB hpz
        rw [hrest,
          replaceAll_copy_prefix (placeholderOf x) rep (placeholderOf_ne_nil x)
            (placeholderOf z) rest
            (fun u2 hsuf hne2 =>
              placeholder_suffix_no_match z x u2 rest hz hx
                (fun hc => hne hc.symm) hsuf hne2)]
        exact ⟨[], replaceAll rest (placeholderOf x) rep, by simp⟩
      · by_cases hm : startsWithB (placeholderOf x) (c :: t) = true
        · obtain ⟨rest, hrest⟩ := exists_of_startsWithB hm
          rw [hrest, replaceAll_append_match (placeholderOf x) rest rep
            (placeholderOf_ne_nil x)]
          rw [hrest] at hinf hn
          have hlen : rest.length ≤ n := by
            simp only [List.length_append, placeholderOf_eq, List.length_cons] at hn
            omega
          obtain ⟨u, v, huv⟩ := hinf
          rw [List.append_assoc] at huv
          rcases List.append_eq_append_iff.mp huv with ⟨a', ha1, ha2⟩ | ⟨c', hc1, hc2⟩
          · by_cases ha' : a' = []
            · subst ha'
              have hinf' : List.IsInfix (placeholderOf z) rest :=
                ⟨[], v, by simpa using ha2⟩
              exact infix_append_left rep (ih rest hlen hinf')
            · exfalso
              have hsufa : List.IsSuffix a' (placeholderOf x) := ⟨u, ha1.symm⟩
              have hsw : startsWithB (placeholderOf z) (a' ++ rest) = true := by
                rw [← ha2]
                exact startsWithB_append_self _ _
              have hfalse := placeholder_suffix_no_match x z a' rest hx hz hne hsufa ha'
              rw [hsw] at hfalse
              exact Bool.noConfusion hfalse
          · have hinf' : List.IsInfix (placeholderOf z) rest :=
              ⟨c', v, by rw [List.append_assoc, hc2]⟩
            exact infix_append_left rep (ih rest hlen hinf')
        · rw [replaceAll_cons_nomatch (placeholderOf_ne_nil x) hm]
          have hlen : t.length ≤ n := by
            simpa using hn
          exact infix_cons c (ih t hlen (infix_cons_of_not_startsWith hinf hpz))

theorem mlookup_cons_none {α : Type} {p : Str × α} {m : List (Str × α)} {z : Str}
    (h : mlookup z (p :: m) = none) : p.1 ≠ z ∧ mlookup z m = none := by
  obtain ⟨k, v⟩ := p
  by_cases hp : k = z
  · simp [mlookup, hp] at h
  · simp only [mlookup, if_neg hp] at h
    exact ⟨hp, h⟩

/-- The variable-substitution loop preserves every occurrence of the
placeholder of a brace-free name that is not a key of the mapping,
whatever the values substituted for brace-free keys. -/
theorem infix_preserved_fold (z : Str) (hz : braceFree z = true) :
    ∀ (m : VarMap), (∀ p ∈ m, braceFree p.1 = true) → mlookup z m = none →
      ∀ res, List.IsInfix (placeholderOf z) res →
        List.IsInfix (placeholderOf z) (m.foldl tmplStep res) := by
  intro m
  induction m with
  | nil => exact fun _ _ res h => h
  | cons p tl ihm =>
    intro hkeys hnk res h
    obtain ⟨hp1, hnk'⟩ := mlookup_cons_none hnk
    rw [List.foldl_cons]
    apply ihm (fun q hq => hkeys q (List.mem_cons_of_mem p hq)) hnk'
    unfold tmplStep
    by_cases hk : p.1 = remKey
    · rw [if_pos hk]
      exact h
    · rw [if_neg hk]
      by_cases hcont : containsSub res (placeholderOf p.1) = true
      · rw [if_pos hcont]
        exact infix_preserved_replaceAll z p.1 (substValue p.2) hz
          (hkeys p (List.mem_cons_self p tl)) (fun hc => hp1 hc.symm)
          res.length res le_rfl h
      · rw [if_neg hcont]
        exact h

/-- C8: the template renderer never returns an error (conjunct 1); for
every template and every mapping without the `REMINDER` key, the rendering
equals the variable pass applied to the template with every `{{REMINDER}}`
occurrence replaced by the empty string (conjunct 2) — in particular
rendering the bare placeholder against any such mapping yields the empty
string (conjunct 4); and for every template — mixed templates included —
and every mapping over brace-free names, each placeholder occurrence whose
brace-free name is not a key of the mapping survives unchanged into the
output (conjunct 3); a template containing no matched placeholder at all
is returned verbatim (conjunct 5), and in the concrete mixed template the
matched `x` is substituted while the unmatched `z` survives literally
(conjunct 6).  Brace-free names exclude only the degenerate names
containing a curly brace, whose placeholder text is ambiguous. -/
theorem C8_unmatched_placeholders (t : Str) (m : VarMap) :
    (∃ s, processTemplate t m = .ok s)
    ∧ (mlookup remKey m = none →
        processTemplate t m
          = .ok (m.foldl tmplStep (replaceAll t (placeholderOf remKey) [])))
    ∧ (∀ z s, braceFree z = true → z ≠ remKey → mlookup z m = none →
        (∀ p ∈ m, braceFree p.1 = true) →
        processTemplate t m = .ok s →
        List.IsInfix (placeholderOf z) t → List.IsInfix (placeholderOf z) s)
    ∧ (mlookup remKey m = none →
        processTemplate (placeholderOf remKey) m = .ok [])
    ∧ ((∀ p ∈ m, containsSub t (placeholderOf p.1) = false) →
        containsSub t (placeholderOf remKey) = false →
        processTemplate t m = .ok t)
    ∧ processTemplate "\x7b\x7bx\x7d\x7d \x7b\x7bz\x7d\x7d".toList
        [("x".toList, .str "v".toList)]
      = .ok "v \x7b\x7bz\x7d\x7d".toList := by
  refine ⟨?_, ?_, ?_, ?_, ?_, by decide⟩
  · by_cases h : t = []
    · exact ⟨t, by simp [processTemplate, h]⟩
    · exact ⟨_, by rw [processTemplate, if_neg h]⟩
  · intro h
    by_cases ht : t = []
    · subst ht
      rw [replaceAll_nil, foldl_tmplStep_nil]
      simp [processTemplate]
    · by_cases hcont : containsSub t (placeholderOf remKey) = true
      · rw [processTemplate, if_neg ht]
        simp only [hcont, if_true, h]
      · have hcont' : containsSub t (placeholderOf remKey) = false :=
          Bool.eq_false_iff.mpr hcont
        rw [replaceAll_of_not_contains hcont', processTemplate, if_neg ht]
        simp only [hcont', Bool.false_eq_true, if_false]
  · intro z s hz hzr hnk hkeys hok hinf
    by_cases ht : t = []
    · subst ht
      have hnil : processTemplate [] m = .ok [] := by simp [processTemplate]
      rw [hnil] at hok
      injection hok with hs
      rw [← hs]
      exact hinf
    · rw [processTemplate, if_neg ht] at hok
      simp only [Except.ok.injEq] at hok
      rw [← hok]
      apply infix_preserved_fold z hz m hkeys hnk
      by_cases hcont : containsSub t (placeholderOf remKey) = true
      · rw [if_pos hcont]
        cases hv : mlookup remKey m with
        | none =>
          exact infix_preserved_replaceAll z remKey [] hz (by decide) hzr
            t.length t le_rfl hinf
        | some v =>
          exact infix_preserved_replaceAll z remKey (substValue v) hz (by decide) hzr
            t.length t le_rfl hinf
      · rw [if_neg hcont]
        exact hinf
  · intro h
    have hne : ¬ (placeholderOf remKey = []) := by decide
    have hcontains : containsSub (placeholderOf remKey) (placeholderOf remKey) = true := by
      decide
    have hrep : replaceAll (placeholderOf remKey) (placeholderOf remKey) [] = [] := by
      decide
    rw [processTemplate, if_neg hne]
    simp only [hcontains, if_true, h, hrep]
    exact congrArg Except.ok (foldl_tmplStep_nil m)
  · intro hall hrem
    by_cases h : t = []
    · simp [processTemplate, h]
    · rw [processTemplate, if_neg h]
      simp only [hrem, Bool.false_eq_true, if_false]
      exact congrArg Except.ok (foldl_tmplStep_id t m hall)

/-- Template and mapping of the C8 witness: a mixed template carrying a
matched `x`, a `REMINDER` placeholder, and an unmatched `z`. -/
def tmplC8 : Str :=
  "\x7b\x7bx\x7d\x7d \x7b\x7bREMINDER\x7d\x7d \x7b\x7bz\x7d\x7d".toList

def mapC8 : VarMap := [("x".toList, .str "v".toList)]

/-- Witness for C8, exercising the universal conjuncts at the mixed
template: the general `REMINDER` equation holds there, the unmatched
`z` placeholder survives into the concrete output, the bare `REMINDER`
placeholder renders to the empty string against the empty mapping, and a
template whose only placeholder has no matching key comes back verbatim. -/
theorem C8_witness :
    processTemplate tmplC8 mapC8
      = .ok (mapC8.foldl tmplStep (replaceAll tmplC8 (placeholderOf remKey) []))
    ∧ List.IsInfix (placeholderOf "z".toList) "v  \x7b\x7bz\x7d\x7d".toList
    ∧ processTemplate (placeholderOf remKey) [] = .ok []
    ∧ processTemplate "\x7b\x7bz\x7d\x7d".toList [("y".toList, .str "w".toList)]
      = .ok "\x7b\x7bz\x7d\x7d".toList :=
  ⟨(C8_unmatched_placeholders tmplC8 mapC8).2.1 (by decide),
   (C8_unmatched_placeholders tmplC8 mapC8).2.2.1 "z".toList
      "v  \x7b\x7bz\x7d\x7d".toList (by decide) (by decide) (by decide)
      (by decide) (by decide)
      ⟨"\x7b\x7bx\x7d\x7d \x7b\x7bREMINDER\x7d\x7d ".toList, [], by decide⟩,
   (C8_unmatched_placeholders [] []).2.2.2.1 (by decide),
   (C8_unmatched_placeholders "\x7b\x7bz\x7d\x7d".toList
      [("y".toList, .str "w".toList)]).2.2.2.2.1 (by decide) (by decide)⟩

/-! ### C9 -/

theorem replaceAllF_singleton (c : Char) (r : Str) :
    ∀ (n : Nat) (s : Str), s.length ≤ n →
      replaceAllF n s [c] r = s.flatMap (fun d => if d = c then r else [d]) := by
  intro n
  induction n with
  | zero =>
    intro s hs
    cases s with
    | nil => rfl
    | cons d t => simp at hs
  | succ n ih =>
    intro s hs
    cases s with
    | nil => rfl
    | cons d t =>
      have ht : t.length ≤ n := by simpa using hs
      by_cases hc : c = d
      · subst hc
        simp [replaceAllF, startsWithB, ih t ht]
      · simp [replaceAllF, startsWithB, hc, Ne.symm hc, ih t ht]

theorem replaceAll_singleton (s : Str) (c : Char) (r : Str) :
    replaceAll s [c] r = s.flatMap (fun d => if d = c then r else [d]) :=
  replaceAllF_singleton c r s.length s le_rfl

/-- The escaping as the claim words it, character by character: newline,
carriage return, tab and double quote become their two-character JSON
escapes; every other character is kept. -/
def escChar (c : Char) : Str :=
  if c = '\n' then ['\\', 'n']
  else if c = '\r' then ['\\', 'r']
  else if c = '\t' then ['\\', 't']
  else if c = '"' then ['\\', '"']
  else [c]

/-- Character-wise escaping of a whole string (the claim's wording). -/
def escapeSpec (s : Str) : Str := s.flatMap escChar

/-- The substitution text as the claim words it: strings are JSON-escaped
character-wise; non-string values are JSON-marshaled, falling back to the
best-effort string conversion when marshaling fails. -/
def claimRender : GoVal → Str
  | .str s => escapeSpec s
  | .json j => jsonSerialize j
  | .dyn (some mr) _ => mr
  | .dyn none g => g

/-- The source's four sequential replace passes equal the character-wise
escaping of the claim. -/
theorem escapeStr_eq_escapeSpec (s : Str) : escapeStr s = escapeSpec s := by
  unfold escapeStr escapeSpec
  rw [replaceAll_singleton, replaceAll_singleton, replaceAll_singleton,
    replaceAll_singleton]
  simp only [List.flatMap_assoc]
  apply List.flatMap_congr
  intro c _
  by_cases h1 : c = '\n'
  · subst h1; decide
  · by_cases h2 : c = '\r'
    · subst h2; decide
    · by_cases h3 : c = '\t'
      · subst h3; decide
      · by_cases h4 : c = '"'
        · subst h4; decide
        · simp [escChar, h1, h2, h3, h4]

/-- C9: the text substituted for a placeholder is exactly what the claim
describes — for string values the characters newline, carriage return,
tab and double quote are JSON-escaped (to their two-character escapes)
before insertion, for non-string values the JSON marshaling is inserted,
with the best-effort string conversion as fallback when marshaling fails;
in the concrete spec scenario the quote in the source value arrives
escaped in the rendered output. -/
theorem C9_value_escaping (v : GoVal) (s : Str) :
    substValue v = claimRender v
    ∧ escapeStr s = escapeSpec s
    ∧ processTemplate "\x7b\x7bx\x7d\x7d".toList [("x".toList, .str "a\"b".toList)]
        = .ok "a\\\"b".toList := by
  refine ⟨?_, escapeStr_eq_escapeSpec s, by decide⟩
  cases v with
  | str s' => simpa [substValue, claimRender] using escapeStr_eq_escapeSpec s'
  | json j => rfl
  | dyn mr g => cases mr <;> rfl

/-! ### Registry lemmas for the scheduler invariant -/

theorem mlookup_eq_none_iff {α : Type} (k : Str) (m : List (Str × α)) :
    mlookup k m = none ↔ k ∉ m.map Prod.fst := by
  induction m with
  | nil => simp [mlookup]
  | cons p rest ih =>
    obtain ⟨k', v⟩ := p
    by_cases h : k' = k
    · subst h
      simp only [mlookup, if_pos rfl, List.map_cons, List.mem_cons]
      constructor
      · intro hc
        exact absurd hc (Option.some_ne_none v)
      · intro hm
        exact absurd (Or.inl trivial) hm
    · simp only [mlookup, if_neg h, List.map_cons, List.mem_cons]
      rw [ih]
      constructor
      · intro hn hor
        rcases hor with h1 | h2
        · exact h h1.symm
        · exact hn h2
      · intro hnn
        exact fun h2 => hnn (Or.inr h2)

theorem merase_sublist {α : Type} (k : Str) (m : List (Str × α)) :
    List.Sublist (merase k m) m := by
  induction m with
  | nil => simp [merase]
  | cons p rest ih =>
    obtain ⟨k', v⟩ := p
    by_cases h : k' = k
    · rw [merase, if_pos h]
      exact ih.cons (k', v)
    · rw [merase, if_neg h]
      exact ih.cons₂ (k', v)

theorem merase_keys_nodup {α : Type} (k : Str) (m : List (Str × α))
    (h : (m.map Prod.fst).Nodup) : ((merase k m).map Prod.fst).Nodup :=
  h.sublist ((merase_sublist k m).map Prod.fst)

theorem minsert_keys_nodup {α : Type} (k : Str) (v : α) (m : List (Str × α))
    (h : (m.map Prod.fst).Nodup) : ((minsert k v m).map Prod.fst).Nodup := by
  have hk : k ∉ (merase k m).map Prod.fst :=
    (mlookup_eq_none_iff k (merase k m)).mp (mlookup_merase_self k m)
  have h2 : ((merase k m).map Prod.fst).Nodup := merase_keys_nodup k m h
  simp only [minsert, List.map_cons]
  exact List.nodup_cons.mpr ⟨hk, h2⟩

theorem mem_removeEntry (e : Nat) (l : List (Nat × Str)) (p : Nat × Str) :
    p ∈ removeEntry e l ↔ p ∈ l ∧ p.1 ≠ e := by
  induction l with
  | nil => simp [removeEntry]
  | cons q rest ih =>
    by_cases h : q.1 = e
    · rw [removeEntry, if_pos h, ih]
      constructor
      · exact fun hx => ⟨List.mem_cons_of_mem q hx.1, hx.2⟩
      · intro hx
        rcases List.mem_cons.mp hx.1 with h1 | h2
        · subst h1
          exact absurd h hx.2
        · exact ⟨h2, hx.2⟩
    · rw [removeEntry, if_neg h]
      constructor
      · intro hm
        rcases List.mem_cons.mp hm with h1 | h2
        · subst h1
          exact ⟨List.mem_cons_self p rest, h⟩
        · exact ⟨List.mem_cons_of_mem q (ih.mp h2).1, (ih.mp h2).2⟩
      · intro hx
        rcases List.mem_cons.mp hx.1 with h1 | h2
        · subst h1
          exact List.mem_cons_self p _
        · exact List.mem_cons_of_mem q (ih.mpr ⟨h2, hx.2⟩)

theorem removeEntry_sublist (e : Nat) (l : List (Nat × Str)) :
    List.Sublist (removeEntry e l) l := by
  induction l with
  | nil => simp [removeEntry]
  | cons q rest ih =>
    by_cases h : q.1 = e
    · rw [removeEntry, if_pos h]
      exact ih.cons q
    · rw [removeEntry, if_neg h]
      exact ih.cons₂ q

/-- The number of live cron entries registered for a job id. -/
def countFor (jid : Str) : List (Nat × Str) → Nat
  | [] => 0
  | p :: rest => (if p.2 = jid then 1 else 0) + countFor jid rest

theorem countFor_sublist_le (jid : Str) {l₁ l₂ : List (Nat × Str)}
    (h : List.Sublist l₁ l₂) : countFor jid l₁ ≤ countFor jid l₂ := by
  induction h with
  | slnil => exact le_rfl
  | cons q h ih =>
    rw [countFor]
    omega
  | cons₂ q h ih =>
    rw [countFor, countFor]
    omega

theorem countFor_eq_zero (jid : Str) (l : List (Nat × Str)) :
    countFor jid l = 0 ↔ ∀ p ∈ l, p.2 ≠ jid := by
  induction l with
  | nil => simp [countFor]
  | cons q rest ih =>
    by_cases h : q.2 = jid
    · simp [countFor, h]
    · simp [countFor, h, ih]

theorem countFor_append (jid : Str) (l₁ l₂ : List (Nat × Str)) :
    countFor jid (l₁ ++ l₂) = countFor jid l₁ + countFor jid l₂ := by
  induction l₁ with
  | nil => simp [countFor]
  | cons q rest ih =>
    rw [List.cons_append, countFor, countFor, ih]
    omega

theorem snd_eq_of_fst_nodup {α β : Type} {l : List (α × β)} {a : α} {b c : β}
    (hnd : (l.map Prod.fst).Nodup) (hb : (a, b) ∈ l) (hc : (a, c) ∈ l) :
    b = c := by
  induction l with
  | nil => simp at hb
  | cons p rest ih =>
    rw [List.map_cons, List.nodup_cons] at hnd
    rcases List.mem_cons.mp hb with hb1 | hb2
    · rcases List.mem_cons.mp hc with hc1 | hc2
      · rw [← hb1] at hc1
        exact (Prod.ext_iff.mp hc1).2.symm
      · exact absurd (by
          rw [← hb1]
          simpa using List.mem_map_of_mem Prod.fst hc2) hnd.1
    · rcases List.mem_cons.mp hc with hc1 | hc2
      · exact absurd (by
          rw [← hc1]
          simpa using List.mem_map_of_mem Prod.fst hb2) hnd.1
      · exact ih hnd.2 hb2 hc2

theorem removeJobRemindersOp_sublist (jid : Str) (l : List (Str × Int)) :
    List.Sublist (removeJobRemindersOp jid l) l := by
  induction l with
  | nil => simp [removeJobRemindersOp]
  | cons q rest ih =>
    obtain ⟨k, v⟩ := q
    by_cases h : startsWithB (jid ++ und) k = true
    · rw [removeJobRemindersOp, if_pos h]
      exact ih.cons (k, v)
    · rw [removeJobRemindersOp, if_neg h]
      exact ih.cons₂ (k, v)

theorem mlookup_removeJobRemindersOp (jid k : Str) (l : List (Str × Int)) :
    mlookup k (removeJobRemindersOp jid l)
      = if startsWithB (jid ++ und) k = true then none else mlookup k l := by
  induction l with
  | nil => simp [removeJobRemindersOp, mlookup]
  | cons q rest ih =>
    obtain ⟨k', v⟩ := q
    by_cases hpre : startsWithB (jid ++ und) k' = true
    · rw [removeJobRemindersOp, if_pos hpre, ih]
      by_cases hk : startsWithB (jid ++ und) k = true
      · simp [hk]
      · have hne : k' ≠ k := fun hc => hk (hc ▸ hpre)
        simp [hk, mlookup, hne]
    · rw [removeJobRemindersOp, if_neg hpre]
      by_cases hk : k' = k
      · subst hk
        have : ¬ startsWithB (jid ++ und) k' = true := hpre
        simp [mlookup, this]
      · simp [mlookup, hk, ih]

/-! ### The scheduler invariant -/

/-- The structural invariant of reachable scheduler states: each job id
has at most one live trigger, the job registry and the live entries agree,
entry ids are fresh and distinct, and the registries are duplicate-free. -/
structure Inv (st : SchedState) : Prop where
  trigOnce : ∀ jid, countFor jid st.entries ≤ 1
  owned : ∀ p ∈ st.entries, mlookup p.2 st.jobs = some p.1
  live : ∀ jid e, mlookup jid st.jobs = some e → (e, jid) ∈ st.entries
  fresh : ∀ p ∈ st.entries, p.1 < st.nextId
  entryNodup : (st.entries.map Prod.fst).Nodup
  timersNodup : (st.timers.map Prod.fst).Nodup
  jobsNodup : (st.jobs.map Prod.fst).Nodup

theorem inv_init (repo0 : List CronJob) : Inv (initState repo0) := by
  refine ⟨?_, ?_, ?_, ?_, ?_, ?_, ?_⟩ <;> simp [initState, countFor, mlookup]

theorem Inv.withTimers {st : SchedState} (h : Inv st) (tm : List (Str × Int))
    (ht : (tm.map Prod.fst).Nodup) : Inv { st with timers := tm } :=
  ⟨h.trigOnce, h.owned, h.live, h.fresh, h.entryNodup, ht, h.jobsNodup⟩

theorem Inv.withOutputs {st : SchedState} (h : Inv st) (o : Outputs) :
    Inv { st with outputs := o } :=
  ⟨h.trigOnce, h.owned, h.live, h.fresh, h.entryNodup, h.timersNodup, h.jobsNodup⟩

theorem inv_scheduleReminder (now : Int) (job : CronJob) (r : Reminder)
    (st : SchedState) (h : Inv st) : Inv (scheduleReminder now job r st) := by
  unfold scheduleReminder
  by_cases hd : r.datetime < now
  · rw [if_pos hd]
    exact h
  · rw [if_neg hd]
    exact h.withTimers _ (minsert_keys_nodup _ _ _ h.timersNodup)

theorem scheduleReminder_frame (now : Int) (job : CronJob) (r : Reminder)
    (st : SchedState) :
    (scheduleReminder now job r st).entries = st.entries
    ∧ (scheduleReminder now job r st).jobs = st.jobs
    ∧ (scheduleReminder now job r st).nextId = st.nextId := by
  unfold scheduleReminder
  by_cases hd : r.datetime < now <;> simp [hd]

theorem inv_foldSchedule (now : Int) (job : CronJob) (rs : List Reminder)
    (st : SchedState) (h : Inv st) :
    Inv (rs.foldl (fun s r => scheduleReminder now job r s) st) := by
  induction rs generalizing st with
  | nil => exact h
  | cons r t ih => exact ih _ (inv_scheduleReminder now job r st h)

theorem foldSchedule_frame (now : Int) (job : CronJob) (rs : List Reminder)
    (st : SchedState) :
    (rs.foldl (fun s r => scheduleReminder now job r s) st).entries = st.entries
    ∧ (rs.foldl (fun s r => scheduleReminder now job r s) st).jobs = st.jobs
    ∧ (rs.foldl (fun s r => scheduleReminder now job r s) st).nextId = st.nextId := by
  induction rs generalizing st with
  | nil => exact ⟨rfl, rfl, rfl⟩
  | cons r t ih =>
    obtain ⟨h1, h2, h3⟩ := ih (scheduleReminder now job r st)
    obtain ⟨g1, g2, g3⟩ := scheduleReminder_frame now job r st
    exact ⟨by rw [List.foldl_cons, h1, g1], by rw [List.foldl_cons, h2, g2],
      by rw [List.foldl_cons, h3, g3]⟩

theorem foldSchedule_timers_lookup (now : Int) (job : CronJob)
    (rs : List Reminder) (st : SchedState) (k : Str) (v : Int)
    (h : mlookup k ((rs.foldl (fun s r => scheduleReminder now job r s) st).timers)
      = some v) :
    mlookup k st.timers = some v ∨ ∃ r ∈ rs, k = timerKey job.id r.id := by
  induction rs generalizing st with
  | nil => exact Or.inl h
  | cons r t ih =>
    rw [List.foldl_cons] at h
    rcases ih (scheduleReminder now job r st) h with hbase | ⟨r', hr', hk⟩
    · unfold scheduleReminder at hbase
      by_cases hd : r.datetime < now
      · rw [if_pos hd] at hbase
        exact Or.inl hbase
      · rw [if_neg hd] at hbase
        by_cases hkey : k = timerKey job.id r.id
        · exact Or.inr ⟨r, List.mem_cons_self r t, hkey⟩
        · rw [mlookup_minsert_ne _ _ _ _ (fun hc => hkey hc.symm)] at hbase
          exact Or.inl hbase
    · exact Or.inr ⟨r', List.mem_cons_of_mem r hr', hk⟩

theorem inv_noEntry (jid : Str) (st : SchedState) (h : Inv st)
    (hm : mlookup jid st.jobs = none) : countFor jid st.entries = 0 := by
  rw [countFor_eq_zero]
  intro p hp hcon
  have := h.owned p hp
  rw [hcon, hm] at this
  exact Option.noConfusion this

theorem inv_dropEntry (jid : Str) (st : SchedState) (h : Inv st) (e : Nat)
    (hm : mlookup jid st.jobs = some e) :
    Inv { st with entries := removeEntry e st.entries, jobs := merase jid st.jobs }
    ∧ countFor jid (removeEntry e st.entries) = 0
    ∧ mlookup jid (merase jid st.jobs) = none := by
  have hjid_ne : ∀ p ∈ st.entries, p.1 ≠ e → p.2 ≠ jid := by
    intro p hp hne hcon
    have hown := h.owned p hp
    rw [hcon, hm] at hown
    exact hne (Option.some.injEq .. ▸ hown.symm ▸ rfl)
  refine ⟨⟨?_, ?_, ?_, ?_, ?_, ?_, ?_⟩, ?_, mlookup_merase_self jid st.jobs⟩
  · intro jid'
    exact le_trans (countFor_sublist_le jid' (removeEntry_sublist e st.entries))
      (h.trigOnce jid')
  · intro p hp
    obtain ⟨hpe, hpne⟩ := (mem_removeEntry e st.entries p).mp hp
    have hne2 : p.2 ≠ jid := hjid_ne p hpe hpne
    rw [mlookup_merase_ne jid p.2 st.jobs (fun hc => hne2 hc.symm)]
    exact h.owned p hpe
  · intro jid' e' hl
    by_cases hj : jid' = jid
    · rw [hj, mlookup_merase_self] at hl
      exact Option.noConfusion hl
    · rw [mlookup_merase_ne jid jid' st.jobs (fun hc => hj hc.symm)] at hl
      have hmem := h.live jid' e' hl
      rw [mem_removeEntry]
      refine ⟨hmem, ?_⟩
      intro hcon
      have hcon' : e' = e := hcon
      rw [hcon'] at hmem
      exact hj (snd_eq_of_fst_nodup h.entryNodup hmem (h.live jid e hm))
  · intro p hp
    exact h.fresh p ((mem_removeEntry e st.entries p).mp hp).1
  · exact h.entryNodup.sublist ((removeEntry_sublist e st.entries).map Prod.fst)
  · exact h.timersNodup
  · exact merase_keys_nodup jid st.jobs h.jobsNodup
  · rw [countFor_eq_zero]
    intro p hp
    obtain ⟨hpe, hpne⟩ := (mem_removeEntry e st.entries p).mp hp
    exact hjid_ne p hpe hpne

theorem inv_install (job : CronJob) (s2 : SchedState) (h : Inv s2)
    (hcount : countFor job.id s2.entries = 0)
    (hnone : mlookup job.id s2.jobs = none) :
    Inv { s2 with
      entries := s2.entries ++ [(s2.nextId, job.id)],
      nextId := s2.nextId + 1,
      jobs := minsert job.id s2.nextId s2.jobs } := by
  refine ⟨?_, ?_, ?_, ?_, ?_, h.timersNodup, minsert_keys_nodup _ _ _ h.jobsNodup⟩
  · intro jid
    rw [countFor_append]
    by_cases hj : jid = job.id
    · subst hj
      rw [hcount]
      simp [countFor]
    · have h1 := h.trigOnce jid
      have h2 : countFor jid [(s2.nextId, job.id)] = 0 := by
        have hne : job.id ≠ jid := fun hc => hj hc.symm
        simp [countFor, hne]
      omega
  · intro p hp
    rcases List.mem_append.mp hp with hp | hp
    · have hown := h.owned p hp
      have hne : p.2 ≠ job.id := by
        intro hc
        rw [hc, hnone] at hown
        exact Option.noConfusion hown
      rw [mlookup_minsert_ne _ _ _ _ (fun hc => hne hc.symm)]
      exact hown
    · have : p = (s2.nextId, job.id) := by simpa using hp
      rw [this]
      exact mlookup_minsert_self _ _ _
  · intro jid e' hl
    by_cases hj : jid = job.id
    · subst hj
      rw [mlookup_minsert_self] at hl
      have : e' = s2.nextId := (Option.some.injEq .. ▸ hl.symm ▸ rfl)
      rw [this]
      simp
    · rw [mlookup_minsert_ne _ _ _ _ (fun hc => hj hc.symm)] at hl
      exact List.mem_append_left _ (h.live jid e' hl)
  · intro p hp
    rcases List.mem_append.mp hp with hp | hp
    · exact Nat.lt_succ_of_lt (h.fresh p hp)
    · have : p = (s2.nextId, job.id) := by simpa using hp
      rw [this]
      exact Nat.lt_succ_self _
  · rw [List.map_append]
    refine h.entryNodup.append (by simp) ?_
    intro a ha hb
    have hb' : a = s2.nextId := by simpa using hb
    obtain ⟨p, hp, hpa⟩ := List.mem_map.mp ha
    have := h.fresh p hp
    rw [hpa, hb'] at this
    exact absurd this (lt_irrefl _)

theorem inv_addJob (valid : Str → Bool) (now : Int) (job : CronJob)
    (st : SchedState) (h : Inv st) : Inv (addJob valid now job st) := by
  unfold addJob
  have main : ∀ s1 : SchedState, Inv s1 → countFor job.id s1.entries = 0 →
      mlookup job.id s1.jobs = none →
      Inv (if ¬ job.enabled then
            { s1 with timers := removeJobRemindersOp job.id s1.timers }
          else if ¬ valid job.schedule then
            { s1 with timers := removeJobRemindersOp job.id s1.timers }
          else
            job.reminders.foldl (fun s r => scheduleReminder now job r s)
              { s1 with
                timers := removeJobRemindersOp job.id s1.timers,
                entries := s1.entries ++ [(s1.nextId, job.id)],
                nextId := s1.nextId + 1,
                jobs := minsert job.id s1.nextId s1.jobs }) := by
    intro s1 h1 hc1 hn1
    have h2 : Inv { s1 with timers := removeJobRemindersOp job.id s1.timers } :=
      h1.withTimers _
        (h1.timersNodup.sublist ((removeJobRemindersOp_sublist job.id s1.timers).map Prod.fst))
    by_cases he : job.enabled
    · by_cases hv : valid job.schedule
      · simp only [he, hv, not_true, if_false, ite_false]
        exact inv_foldSchedule now job job.reminders _ (inv_install job _ h2 hc1 hn1)
      · simp [he, hv, h2]
    · simp [he, h2]
  cases hm : mlookup job.id st.jobs with
  | none =>
    exact main st h (inv_noEntry job.id st h hm) hm
  | some e =>
    obtain ⟨hinv, hcnt, hnone⟩ := inv_dropEntry job.id st h e hm
    exact main _ hinv hcnt hnone

theorem inv_removeJob (jobID : Str) (st : SchedState) (h : Inv st) :
    Inv (removeJob jobID st) := by
  unfold removeJob
  cases hm : mlookup jobID st.jobs with
  | none =>
    exact h.withTimers _
      (h.timersNodup.sublist ((removeJobRemindersOp_sublist jobID st.timers).map Prod.fst))
  | some e =>
    obtain ⟨hinv, _, _⟩ := inv_dropEntry jobID st h e hm
    have hout : Inv { st with
        entries := removeEntry e st.entries,
        jobs := merase jobID st.jobs,
        outputs := merase jobID st.outputs } :=
      ⟨hinv.trigOnce, hinv.owned, hinv.live, hinv.fresh, hinv.entryNodup,
        hinv.timersNodup, hinv.jobsNodup⟩
    exact hout.withTimers _
      (hout.timersNodup.sublist
        ((removeJobRemindersOp_sublist jobID _).map Prod.fst))

theorem inv_removeReminderOp (jobID reminderID : Str) (st : SchedState)
    (h : Inv st) : Inv (removeReminderOp jobID reminderID st) :=
  h.withTimers _
    (h.timersNodup.sublist ((merase_sublist (timerKey jobID reminderID) st.timers).map Prod.fst))

theorem executeReminder_state (job : CronJob) (r : Reminder) (r1 : HttpResult)
    (st : SchedState) :
    (executeReminder job r r1 st).1.entries = st.entries
    ∧ (executeReminder job r r1 st).1.jobs = st.jobs
    ∧ (executeReminder job r r1 st).1.nextId = st.nextId
    ∧ (executeReminder job r r1 st).1.timers
        = merase (timerKey job.id r.id) st.timers
    ∧ (executeReminder job r r1 st).1.outputs = st.outputs := by
  unfold executeReminder
  cases hdel : deleteReminderRepo job.id r.id st.repo <;> simp [hdel]

theorem inv_fire (job : CronJob) (r : Reminder) (r1 : HttpResult)
    (st : SchedState) (h : Inv st) : Inv (executeReminder job r r1 st).1 := by
  obtain ⟨he, hj, hn, ht, _⟩ := executeReminder_state job r r1 st
  refine ⟨?_, ?_, ?_, ?_, ?_, ?_, ?_⟩
  · rw [he]
    exact h.trigOnce
  · rw [he, hj]
    exact h.owned
  · rw [he, hj]
    exact h.live
  · rw [he, hn]
    exact h.fresh
  · rw [he]
    exact h.entryNodup
  · rw [ht]
    exact h.timersNodup.sublist ((merase_sublist _ st.timers).map Prod.fst)
  · rw [hj]
    exact h.jobsNodup

theorem inv_step {valid : Str → Bool} {s s' : SchedState} (h : Inv s)
    (hs : Step valid s s') : Inv s' := by
  cases hs with
  | add now job st => exact inv_addJob valid now job s h
  | remove jobID st => exact inv_removeJob jobID s h
  | removeRem jobID reminderID st => exact inv_removeReminderOp jobID reminderID s h
  | cache jobID out st => exact h.withOutputs _
  | fire job reminder r1 st => exact inv_fire job reminder r1 s h

theorem inv_reachable {valid : Str → Bool} {repo0 : List CronJob}
    {st : SchedState} (h : Reachable valid repo0 st) : Inv st := by
  induction h with
  | init => exact inv_init repo0
  | step _ hs ih => exact inv_step ih hs

theorem addJob_entries_some (valid : Str → Bool) (now : Int) (job : CronJob)
    (st : SchedState) (e : Nat) (hm : mlookup job.id st.jobs = some e) :
    (addJob valid now job st).entries = removeEntry e st.entries
    ∨ (addJob valid now job st).entries
        = removeEntry e st.entries ++ [(st.nextId, job.id)] := by
  unfold addJob
  rw [hm]
  by_cases he : job.enabled
  · by_cases hv : valid job.schedule
    · right
      simp only [he, hv, not_true, ite_false]
      rw [(foldSchedule_frame now job job.reminders _).1]
    · left
      simp [he, hv]
  · left
    simp [he]

theorem addJob_timers_shape (valid : Str → Bool) (now : Int) (job : CronJob)
    (st : SchedState) :
    (addJob valid now job st).timers = removeJobRemindersOp job.id st.timers
    ∨ ∃ s3 : SchedState, s3.timers = removeJobRemindersOp job.id st.timers
        ∧ (addJob valid now job st).timers
            = (job.reminders.foldl (fun s r => scheduleReminder now job r s) s3).timers := by
  unfold addJob
  cases hm : mlookup job.id st.jobs with
  | none =>
    by_cases he : job.enabled
    · by_cases hv : valid job.schedule
      · refine Or.inr ⟨{ st with
            jobs := minsert job.id st.nextId st.jobs,
            entries := st.entries ++ [(st.nextId, job.id)],
            nextId := st.nextId + 1,
            timers := removeJobRemindersOp job.id st.timers }, rfl, by simp [he, hv]⟩
      · exact Or.inl (by simp [he, hv])
    · exact Or.inl (by simp [he])
  | some e =>
    by_cases he : job.enabled
    · by_cases hv : valid job.schedule
      · refine Or.inr ⟨{ st with
            jobs := minsert job.id st.nextId (merase job.id st.jobs),
            entries := removeEntry e st.entries ++ [(st.nextId, job.id)],
            nextId := st.nextId + 1,
            timers := removeJobRemindersOp job.id st.timers }, rfl, by simp [he, hv]⟩
      · exact Or.inl (by simp [he, hv])
    · exact Or.inl (by simp [he])

theorem addJob_timers_provenance (valid : Str → Bool) (now : Int) (job : CronJob)
    (st : SchedState) (k : Str) (v : Int)
    (hpre : startsWithB (job.id ++ und) k = true)
    (hl : mlookup k (addJob valid now job st).timers = some v) :
    ∃ r ∈ job.reminders, k = timerKey job.id r.id := by
  rcases addJob_timers_shape valid now job st with hshape | ⟨s3, hs3, hshape⟩
  · rw [hshape, mlookup_removeJobRemindersOp, if_pos hpre] at hl
    exact Option.noConfusion hl
  · rw [hshape] at hl
    rcases foldSchedule_timers_lookup now job job.reminders s3 k v hl with hbase | hex
    · rw [hs3, mlookup_removeJobRemindersOp, if_pos hpre] at hbase
      exact Option.noConfusion hbase
    · exact hex

theorem addJob_old_entry_gone (valid : Str → Bool) (now : Int) (job : CronJob)
    (st : SchedState) (e : Nat) (h : Inv st)
    (hm : mlookup job.id st.jobs = some e) :
    ∀ jid, (e, jid) ∉ (addJob valid now job st).entries := by
  intro jid hmem
  have hlt : e < st.nextId := h.fresh (e, job.id) (h.live job.id e hm)
  rcases addJob_entries_some valid now job st e hm with hE | hE
  · rw [hE] at hmem
    exact ((mem_removeEntry e st.entries (e, jid)).mp hmem).2 rfl
  · rw [hE] at hmem
    rcases List.mem_append.mp hmem with hmem | hmem
    · exact ((mem_removeEntry e st.entries (e, jid)).mp hmem).2 rfl
    · have heq : (e, jid) = (st.nextId, job.id) := by simpa using hmem
      have he : e = st.nextId := congrArg Prod.fst heq
      omega

/-! ### C6 -/

/-- The trivially-accepting cron expression parser used by the concrete
scenarios. -/
def validAll : Str → Bool := fun _ => true

/-- The number of active timers held under a composite key. -/
def keyCount (k : Str) : List (Str × Int) → Nat
  | [] => 0
  | p :: rest => (if p.1 = k then 1 else 0) + keyCount k rest

theorem keyCount_eq_zero (k : Str) (l : List (Str × Int)) :
    keyCount k l = 0 ↔ ∀ p ∈ l, p.1 ≠ k := by
  induction l with
  | nil => simp [keyCount]
  | cons p rest ih =>
    by_cases h : p.1 = k
    · simp [keyCount, h]
    · simp [keyCount, h, ih]

theorem keyCount_le_one_of_nodup (k : Str) (tm : List (Str × Int))
    (h : (tm.map Prod.fst).Nodup) : keyCount k tm ≤ 1 := by
  induction tm with
  | nil => simp [keyCount]
  | cons p rest ih =>
    rw [List.map_cons, List.nodup_cons] at h
    by_cases hk : p.1 = k
    · rw [keyCount, if_pos hk]
      have hz : keyCount k rest = 0 := by
        rw [keyCount_eq_zero]
        intro q hq hcon
        exact h.1 (by
          rw [hk, ← hcon]
          exact List.mem_map_of_mem Prod.fst hq)
      omega
    · rw [keyCount, if_neg hk]
      simpa using ih h.2

/-- C6: in every reachable scheduler state, each job id has at most one
live recurring trigger and each composite timer key — hence each (job id,
reminder id) pair — has at most one active timer; moreover re-adding a job
with an existing id removes the prior trigger (its entry is gone from the
result), and every timer of the re-added job's key space present
afterwards comes from the new job's reminders (all prior ones were
cancelled first). -/
theorem C6_at_most_one_trigger (valid : Str → Bool) (repo0 : List CronJob)
    (st : SchedState) (h : Reachable valid repo0 st) :
    (∀ jid, countFor jid st.entries ≤ 1)
    ∧ (∀ key, keyCount key st.timers ≤ 1)
    ∧ (∀ now job e, mlookup job.id st.jobs = some e →
        ∀ jid, (e, jid) ∉ (addJob valid now job st).entries)
    ∧ (∀ now job k v, startsWithB (job.id ++ und) k = true →
        mlookup k (addJob valid now job st).timers = some v →
        ∃ r ∈ job.reminders, k = timerKey job.id r.id) := by
  have hinv := inv_reachable h
  refine ⟨hinv.trigOnce, ?_, ?_, ?_⟩
  · exact fun key => keyCount_le_one_of_nodup key st.timers hinv.timersNodup
  · intro now job e hm jid
    exact addJob_old_entry_gone valid now job st e hinv hm jid
  · intro now job k v hpre hl
    exact addJob_timers_provenance valid now job st k v hpre hl

/-- Witness for C6 at a concrete state in which the same job (with one
reminder) was added twice. -/
theorem C6_witness :
    countFor "a".toList
      (addJob validAll 0 jobR (addJob validAll 0 jobR (initState []))).entries ≤ 1
    ∧ keyCount (timerKey "a".toList "r".toList)
        (addJob validAll 0 jobR (addJob validAll 0 jobR (initState []))).timers ≤ 1 := by
  have h := C6_at_most_one_trigger validAll [] _
    (Reachable.step (Reachable.step Reachable.init (Step.add 0 jobR (initState [])))
      (Step.add 0 jobR (addJob validAll 0 jobR (initState []))))
  exact ⟨h.1 "a".toList, h.2.1 (timerKey "a".toList "r".toList)⟩

/-! ### C10 -/

/-- A job whose id extends `jobA`'s id after the underscore separator,
carrying one reminder. -/
def jobB : CronJob := { jobA with id := "a_b".toList, reminders := [rFut] }

/-- A job with an unrelated id, carrying one reminder. -/
def jobB2 : CronJob := { jobA with id := "b".toList, reminders := [rFut] }

/-- Counterexample to C10 as stated: with job A = `a` and job B = `a_b`
(distinct ids, B extending A after the underscore separator), B's pending
reminder timer exists before removing A, yet removing A deletes it — B's
timer key `a_b_r` has the prefix `a_` — while B's trigger registration
survives. -/
theorem C10_counterexample :
    mlookup (timerKey "a_b".toList "r".toList)
      (addJob validAll 0 jobB (addJob validAll 0 jobA (initState []))).timers = some 9
    ∧ mlookup "a_b".toList
        (removeJob "a".toList
          (addJob validAll 0 jobB (addJob validAll 0 jobA (initState [])))).jobs
      = mlookup "a_b".toList
          (addJob validAll 0 jobB (addJob validAll 0 jobA (initState []))).jobs
    ∧ mlookup (timerKey "a_b".toList "r".toList)
        (removeJob "a".toList
          (addJob validAll 0 jobB (addJob validAll 0 jobA (initState [])))).timers
      = none := by decide

/-- C10 (amended): in every reachable state, removing job A leaves job B's
trigger registration, B's live cron entry, and B's cached output unchanged
for every B with a different id; B's pending reminder timers are also
preserved — but only those whose composite key does not start with
A's id followed by the underscore separator (ids interacting through the
separator, such as B extending A after an underscore, lose their
timers). -/
theorem C10_remove_frame (valid : Str → Bool) (repo0 : List CronJob)
    (st : SchedState) (h : Reachable valid repo0 st) (A B : Str) (hAB : A ≠ B) :
    mlookup B (removeJob A st).jobs = mlookup B st.jobs
    ∧ mlookup B (removeJob A st).outputs = mlookup B st.outputs
    ∧ (∀ eB, mlookup B st.jobs = some eB → (eB, B) ∈ (removeJob A st).entries)
    ∧ (∀ rid, startsWithB (A ++ und) (timerKey B rid) = false →
        mlookup (timerKey B rid) (removeJob A st).timers
          = mlookup (timerKey B rid) st.timers) := by
  have hinv := inv_reachable h
  cases hm : mlookup A st.jobs with
  | none =>
    have hJ : (removeJob A st).jobs = st.jobs := by
      unfold removeJob
      rw [hm]
    have hO : (removeJob A st).outputs = st.outputs := by
      unfold removeJob
      rw [hm]
    have hE : (removeJob A st).entries = st.entries := by
      unfold removeJob
      rw [hm]
    have hT : (removeJob A st).timers = removeJobRemindersOp A st.timers := by
      unfold removeJob
      rw [hm]
    refine ⟨by rw [hJ], by rw [hO], ?_, ?_⟩
    · intro eB hB
      rw [hE]
      exact hinv.live B eB hB
    · intro rid hpre
      rw [hT, mlookup_removeJobRemindersOp, hpre]
      simp
  | some e =>
    have hJ : (removeJob A st).jobs = merase A st.jobs := by
      unfold removeJob
      rw [hm]
    have hO : (removeJob A st).outputs = merase A st.outputs := by
      unfold removeJob
      rw [hm]
    have hE : (removeJob A st).entries = removeEntry e st.entries := by
      unfold removeJob
      rw [hm]
    have hT : (removeJob A st).timers = removeJobRemindersOp A st.timers := by
      unfold removeJob
      rw [hm]
    refine ⟨?_, ?_, ?_, ?_⟩
    · rw [hJ]
      exact mlookup_merase_ne A B st.jobs hAB
    · rw [hO]
      exact mlookup_merase_ne A B st.outputs hAB
    · intro eB hB
      rw [hE]
      have hmem := hinv.live B eB hB
      rw [mem_removeEntry]
      refine ⟨hmem, ?_⟩
      intro hcon
      have hcon' : eB = e := hcon
      rw [hcon'] at hmem
      exact hAB (snd_eq_of_fst_nodup hinv.entryNodup (hinv.live A e hm) hmem)
    · intro rid hpre
      rw [hT, mlookup_removeJobRemindersOp, hpre]
      simp

/-- Witness for the amended C10: with jobs `a` and `b` (no underscore
interaction), removing `a` preserves `b`'s trigger registration and `b`'s
reminder timer. -/
theorem C10_witness :
    mlookup "b".toList
      (removeJob "a".toList
        (addJob validAll 0 jobB2 (addJob validAll 0 jobA (initState [])))).jobs
      = mlookup "b".toList
          (addJob validAll 0 jobB2 (addJob validAll 0 jobA (initState []))).jobs
    ∧ mlookup (timerKey "b".toList "r".toList)
        (removeJob "a".toList
          (addJob validAll 0 jobB2 (addJob validAll 0 jobA (initState [])))).timers
      = mlookup (timerKey "b".toList "r".toList)
          (addJob validAll 0 jobB2 (addJob validAll 0 jobA (initState []))).timers := by
  have h := C10_remove_frame validAll [] _
    (Reachable.step (Reachable.step Reachable.init (Step.add 0 jobA (initState [])))
      (Step.add 0 jobB2 (addJob validAll 0 jobA (initState []))))
    "a".toList "b".toList (by decide)
  exact ⟨h.1, h.2.2.2 "r".toList (by decide)⟩

end CronSpec
